import Mathlib

/-!
Verification development for the k-hop graph traversal engine
(`graphistry/compute/hop.py`).  The pandas dataframes are embedded as
lists of rows; a row is an association list from column names to values.
A missing key plays the role of a pandas `NaN` cell (it fails every
equality comparison, exactly as `NaN == v` is `False`).
-/

namespace Hop

/-- Attribute / identifier values. -/
abbrev Val := Int

/-- A dataframe row: association list column-name to value.  A key that is
absent models a `NaN` cell. -/
abbrev Row := List (String × Val)

/-- A dataframe: list of rows. -/
abbrev DF := List Row

/-- Look a column up in a row (first occurrence wins). -/
def rlookup : Row → String → Option Val
  | [], _ => none
  | (k, v) :: r, c => if k = c then some v else rlookup r c

/-- `r[[cs]]`: keep the listed columns, in the listed order; absent
columns disappear (the `NaN` convention). -/
def selectCols (cs : List String) (r : Row) : Row :=
  cs.filterMap (fun c => (rlookup r c).map (fun v => (c, v)))

/-- Column selection lifted to a dataframe. -/
def selDF (cs : List String) (df : DF) : DF := df.map (selectCols cs)

/-- `df.rename(columns=\x7bo: n\x7d)`. -/
def renameCol (o n : String) (df : DF) : DF :=
  df.map (List.map (fun kv => (if kv.1 = o then n else kv.1, kv.2)))

/-- `df.drop(columns=[c])`. -/
def dropCol (c : String) (df : DF) : DF :=
  df.map (List.filter (fun kv => kv.1 ≠ c))

/-- `c in df.columns`. -/
def hasCol (df : DF) (c : String) : Bool :=
  df.any (fun r => r.any (fun kv => kv.1 = c))

/-- Keep the elements not yet seen, first occurrence wins. -/
def dedupAux {α : Type} [DecidableEq α] (seen : List α) : List α → List α
  | [] => []
  | a :: as => if a ∈ seen then dedupAux seen as else a :: dedupAux (a :: seen) as

/-- `df.drop_duplicates()`: keep the first occurrence of every row. -/
def dedupG {α : Type} [DecidableEq α] (l : List α) : List α := dedupAux [] l

/-- Keep the rows whose key has not been seen yet, first occurrence wins. -/
def dedupByAux (f : Row → Option Val) (seen : List (Option Val)) : DF → DF
  | [] => []
  | r :: rs =>
    if f r ∈ seen then dedupByAux f seen rs
    else r :: dedupByAux f (f r :: seen) rs

/-- `df.drop_duplicates(subset=[c])`, generalized over the key function:
keep the first row for every key value. -/
def dedupBy (f : Row → Option Val) (df : DF) : DF := dedupByAux f [] df

/-- Row produced by a pandas merge: left row, then the right row minus the
join key. -/
def combineRow (k : String) (rl rr : Row) : Row :=
  rl ++ rr.filter (fun kv => kv.1 ≠ k)

/-- `l.merge(r, on=k, how='inner')` (left-major order, as pandas). -/
def innerMerge (l r : DF) (k : String) : DF :=
  l.flatMap (fun rl =>
    (r.filter (fun rr => rlookup rr k = rlookup rl k)).map (combineRow k rl))

/-- `l.merge(r, on=k, how='left')`: an unmatched left row survives with
the right columns missing (`NaN`). -/
def leftMerge (l r : DF) (k : String) : DF :=
  l.flatMap (fun rl =>
    match r.filter (fun rr => rlookup rr k = rlookup rl k) with
    | [] => [rl]
    | ms => ms.map (combineRow k rl))

/-- `df.reset_index()`: inject the surrogate sequential id column. -/
def reset_index (df : DF) : DF :=
  df.enum.map (fun p => ("index", (Int.ofNat p.1)) :: p.2)

/-- Modelled from the spec: `filter_by_dict` / `match_equal` (the
repository file `filter_by_dict.py` is not part of the sources given;
§4.1 of the spec: keep rows where every listed field equals the given
value; a null or empty map passes all rows through). -/
def filter_by_dict (df : DF) (d : Option (List (String × Val))) : DF :=
  match d with
  | none => df
  | some [] => df
  | some m => df.filter (fun r => m.all (fun kv => rlookup r kv.1 = some kv.2))

/-- `query_if_not_none` from `hop.py`: a query string becomes an abstract
boolean row predicate. -/
def query_if_not_none (q : Option (Row → Bool)) (df : DF) : DF :=
  match q with
  | none => df
  | some p => df.filter p

deriving instance DecidableEq for Except

/-- A `Plottable` graph value: node / edge relations and the configurable
column bindings. -/
structure Plottable where
  _nodes : Option DF
  _edges : DF
  _node : Option String
  _source : Option String
  _destination : Option String
  _edge : Option String
deriving DecidableEq

/-- `g.edges(df)`. -/
def Plottable.edges (g : Plottable) (df : DF) : Plottable := { g with _edges := df }

/-- `g.nodes(df)`. -/
def Plottable.nodes (g : Plottable) (df : DF) : Plottable := { g with _nodes := some df }

/-- `g.filter_edges_by_dict(d)` keeps the edges passing the equality map. -/
def Plottable.filter_edges_by_dict (g : Plottable) (d : Option (List (String × Val))) :
    Plottable :=
  { g with _edges := filter_by_dict g._edges d }

/-- Modelled from the spec: `materialize_nodes` (not among the sources
given; §6 of the spec: a materialization step derives an implicit node
table, holding every edge endpoint id, when only edges are supplied). -/
def Plottable.materialize_nodes (g : Plottable) : Plottable :=
  match g._nodes with
  | some _ => g
  | none =>
    match g._source, g._destination with
    | some s, some d =>
      let n := g._node.getD "id"
      let vals := dedupG ((g._edges.filterMap (fun r => rlookup r s))
        ++ (g._edges.filterMap (fun r => rlookup r d)))
      { g with _nodes := some (vals.map (fun v => [(n, v)])), _node := some n }
    | _, _ => g

/-- The call-scoped context of the traversal loop in `hop`: everything the
loop body reads but never writes. -/
structure HopCtx where
  nodesDF : DF
  to_fixed_point : Bool
  dirF : Bool
  dirR : Bool
  source_node_match : Option (List (String × Val))
  source_node_query : Option (Row → Bool)
  destination_node_match : Option (List (String × Val))
  destination_node_query : Option (Row → Bool)
  base_target_nodes : DF
  return_as_wave_front : Bool
  edges_indexed : DF
  eid : String
  n : String
  s : String
  d : String

/-- The mutable state of the traversal loop. -/
structure LoopState where
  hops_remaining : Option Int
  wave_front : DF
  matches_nodes : Option DF
  matches_edges : DF
  first_iter : Bool
deriving DecidableEq

/-- Lines 104-112: the filtered active frontier of an iteration.  Note the
left join is against the caller-supplied `nodes` frame, not against the
full node table. -/
def waveFrontIter (c : HopCtx) (st : LoopState) : DF :=
  selDF [c.n] (query_if_not_none c.source_node_query
    (filter_by_dict
      (if st.first_iter then c.nodesDF else leftMerge st.wave_front c.nodesDF c.n)
      c.source_node_match))

/-- Line 119: `edges_indexed[[s,d,eid]].assign(n := edges_indexed[s])`. -/
def edgesAssignedF (c : HopCtx) : DF :=
  c.edges_indexed.map (fun r =>
    ((selectCols [c.s, c.d, c.eid] r).filter (fun kv => kv.1 ≠ c.n))
      ++ (match rlookup r c.s with | some v => [(c.n, v)] | none => []))

/-- Line 145: `edges_indexed[[d,s,eid]].assign(n := edges_indexed[d])`. -/
def edgesAssignedR (c : HopCtx) : DF :=
  c.edges_indexed.map (fun r =>
    ((selectCols [c.d, c.s, c.eid] r).filter (fun kv => kv.1 ≠ c.n))
      ++ (match rlookup r c.d with | some v => [(c.n, v)] | none => []))

/-- Lines 117-123: candidate forward-traversed edges. -/
def hopEdgesForwardRaw (c : HopCtx) (wfi : DF) : DF :=
  selDF [c.s, c.d, c.eid] (innerMerge wfi (edgesAssignedF c) c.n)

/-- Lines 143-149: candidate reverse-traversed edges. -/
def hopEdgesReverseRaw (c : HopCtx) (wfi : DF) : DF :=
  selDF [c.d, c.s, c.eid] (innerMerge wfi (edgesAssignedR c) c.n)

/-- Is a destination predicate set? (Lines 126, 152.) -/
def hasDestPred (c : HopCtx) : Bool :=
  c.destination_node_query.isSome || c.destination_node_match.isSome

/-- Lines 127-132 / 153-158: restrict candidate new node ids against the
richly-attributed target table. -/
def destFilter (c : HopCtx) (newIds : DF) : DF :=
  selDF [c.n] (query_if_not_none c.destination_node_query
    (filter_by_dict (innerMerge c.base_target_nodes newIds c.n)
      c.destination_node_match))

/-- Lines 117-137: the forward block of one iteration, returning the pair
(hop_edges_forward, new_node_ids_forward). -/
def forwardStep (c : HopCtx) (wfi : DF) : DF × DF :=
  let he := hopEdgesForwardRaw c wfi
  let ni := dedupG (renameCol c.d c.n (selDF [c.d] he))
  if hasDestPred c then
    let ni2 := destFilter c ni
    (innerMerge he (renameCol c.n c.d ni2) c.d, ni2)
  else (he, ni)

/-- Lines 143-163: the reverse block of one iteration. -/
def reverseStep (c : HopCtx) (wfi : DF) : DF × DF :=
  let he := hopEdgesReverseRaw c wfi
  let ni := dedupG (renameCol c.s c.n (selDF [c.s] he))
  if hasDestPred c then
    let ni2 := destFilter c ni
    (innerMerge he (renameCol c.n c.s ni2) c.s, ni2)
  else (he, ni)

/-- The edge-id column of an optional direction result (`mt` when the
direction is inactive). -/
def optEdgeIds (eidc : String) (p : Option (DF × DF)) : DF :=
  match p with
  | some fr => selDF [eidc] fr.1
  | none => []

/-- The new node ids of an optional direction result. -/
def optNewIds (p : Option (DF × DF)) : DF :=
  match p with
  | some fr => fr.2
  | none => []

/-- Line 187: the forward root endpoints of an optional direction result. -/
def optSeedF (c : HopCtx) (p : Option (DF × DF)) : DF :=
  match p with
  | some fr => dedupG (renameCol c.s c.n (selDF [c.s] fr.1))
  | none => []

/-- Line 190: the reverse root endpoints of an optional direction result. -/
def optSeedR (c : HopCtx) (p : Option (DF × DF)) : DF :=
  match p with
  | some rv => dedupG (renameCol c.d c.n (selDF [c.d] rv.1))
  | none => []

/-- Lines 185-193: the first-iteration seeding of the result node set with
the traversed root endpoints. -/
def seedNodes (c : HopCtx) (fwd? rev? : Option (DF × DF)) : DF :=
  dedupBy (fun r => rlookup r c.n) (optSeedF c fwd? ++ optSeedR c rev?)

/-- The forward block, active when the direction is forward/undirected. -/
def stepFwd (c : HopCtx) (st : LoopState) : Option (DF × DF) :=
  if c.dirF then some (forwardStep c (waveFrontIter c st)) else none

/-- The reverse block, active when the direction is reverse/undirected. -/
def stepRev (c : HopCtx) (st : LoopState) : Option (DF × DF) :=
  if c.dirR then some (reverseStep c (waveFrontIter c st)) else none

/-- Lines 167-171: the accumulated matched-edge set after this iteration,
deduplicated by edge id. -/
def stepMatchesEdges (c : HopCtx) (st : LoopState) : DF :=
  dedupBy (fun r => rlookup r c.eid)
    (st.matches_edges ++ optEdgeIds c.eid (stepFwd c st)
      ++ optEdgeIds c.eid (stepRev c st))

/-- Lines 173-177: this iteration's deduplicated new node ids. -/
def stepNewIds (c : HopCtx) (st : LoopState) : DF :=
  dedupG (optNewIds (stepFwd c st) ++ optNewIds (stepRev c st))

/-- Lines 181-193: the result node set before this iteration's union —
the previous value, or the first-iteration seed. -/
def stepMatchesCur (c : HopCtx) (st : LoopState) : DF :=
  match st.matches_nodes with
  | some m => m
  | none =>
    if c.return_as_wave_front then []
    else seedNodes c (stepFwd c st) (stepRev c st)

/-- Line 195: `combined = result_node_set ∪ new_node_ids`. -/
def stepCombined (c : HopCtx) (st : LoopState) : DF :=
  dedupG (stepMatchesCur c st ++ stepNewIds c st)

/-- Lines 104-202 (one pass of the `while True` body after the hop-budget
check): compute the iteration and either halt (`Sum.inr`) at the fixed
point or continue (`Sum.inl`). -/
def stepCore (c : HopCtx) (st : LoopState) (hops2 : Option Int) :
    LoopState ⊕ LoopState :=
  if (stepCombined c st).length = (stepMatchesCur c st).length then
    Sum.inr { hops_remaining := hops2, wave_front := st.wave_front,
              matches_nodes := some (stepMatchesCur c st),
              matches_edges := stepMatchesEdges c st, first_iter := false }
  else
    Sum.inl { hops_remaining := hops2, wave_front := stepNewIds c st,
              matches_nodes := some (stepCombined c st),
              matches_edges := stepMatchesEdges c st, first_iter := false }

/-- Lines 98-102 plus the body: one pass of the `while True` loop,
including the hop-budget check and decrement. -/
def hopStep (c : HopCtx) (st : LoopState) : LoopState ⊕ LoopState :=
  match c.to_fixed_point, st.hops_remaining with
  | false, some h => if h < 1 then Sum.inr st else stepCore c st (some (h - 1))
  | _, _ => stepCore c st st.hops_remaining

/-- The `while True` loop, with explicit fuel; `none` means the fuel ran
out (shown never to happen for the fuel `hop` passes). -/
def hopLoop (c : HopCtx) : Nat → LoopState → Option LoopState
  | 0, _ => none
  | fuel + 1, st =>
    match hopStep c st with
    | Sum.inr st2 => some st2
    | Sum.inl st2 => hopLoop c fuel st2

/-- The single-column rows the traversal can ever put into a wavefront or
the result node set: one per edge endpoint of the filtered edge table. -/
def nodeRowUniverse (c : HopCtx) : DF :=
  dedupG ((c.edges_indexed.map (fun r =>
      match rlookup r c.s with | some v => [(c.n, v)] | none => []))
    ++ (c.edges_indexed.map (fun r =>
      match rlookup r c.d with | some v => [(c.n, v)] | none => [])))

/-- Fuel sufficient for the loop: the hop budget bounds it when
`to_fixed_point` is off, the endpoint universe bounds it when on. -/
def hopFuel (c : HopCtx) (hops : Option Int) : Nat :=
  if c.to_fixed_point then (nodeRowUniverse c).length + 2
  else match hops with | some h => h.toNat + 1 | none => 1

/-- The initial loop state (lines 87-97). -/
def initState (hops : Option Int) : LoopState :=
  { hops_remaining := hops, wave_front := [], matches_nodes := none,
    matches_edges := [], first_iter := true }

/-- Line 212-215: the richly-attributed node table used for hydration. -/
def richNodes (target_wave_front : Option DF) (selfNodes : DF) : DF :=
  match target_wave_front with
  | some t => t
  | none => selfNodes

/-- Lines 204-222: the result hydrator. -/
def hydrate (self g2 : Plottable) (edges_indexed : DF) (EDGE_ID nodeCol : String)
    (target_wave_front : Option DF) (stF : LoopState) : Plottable :=
  let fe0 := innerMerge edges_indexed stF.matches_edges EDGE_ID
  let final_edges := if hasCol self._edges EDGE_ID then fe0 else dropCol EDGE_ID fe0
  let gOut := g2.edges final_edges
  match self._nodes with
  | none => gOut
  | some selfNodes =>
    let final_nodes := innerMerge (richNodes target_wave_front selfNodes)
      (stF.matches_nodes.getD []) nodeCol
    gOut.nodes final_nodes

/-- The traversal once the bindings are resolved: build the context, run
the loop, hydrate. -/
def mkCtx (g2 : Plottable) (edges_indexed : DF) (EDGE_ID : String)
    (nodesDF : DF) (nodeCol srcCol dstCol : String)
    (to_fixed_point : Bool) (direction : String)
    (source_node_match : Option (List (String × Val)))
    (destination_node_match : Option (List (String × Val)))
    (source_node_query : Option (Row → Bool))
    (destination_node_query : Option (Row → Bool))
    (return_as_wave_front : Bool) (target_wave_front : Option DF) : HopCtx :=
  { nodesDF := nodesDF
    to_fixed_point := to_fixed_point
    dirF := direction = "forward" ∨ direction = "undirected"
    dirR := direction = "reverse" ∨ direction = "undirected"
    source_node_match := source_node_match
    source_node_query := source_node_query
    destination_node_match := destination_node_match
    destination_node_query := destination_node_query
    base_target_nodes := match target_wave_front with
      | some t => t
      | none => g2._nodes.getD []
    return_as_wave_front := return_as_wave_front
    edges_indexed := edges_indexed
    eid := EDGE_ID
    n := nodeCol
    s := srcCol
    d := dstCol }

def hopRun (self g2 : Plottable) (edges_indexed : DF) (EDGE_ID : String)
    (nodesDF : DF) (nodeCol srcCol dstCol : String)
    (hops : Option Int) (to_fixed_point : Bool) (direction : String)
    (source_node_match : Option (List (String × Val)))
    (destination_node_match : Option (List (String × Val)))
    (source_node_query : Option (Row → Bool))
    (destination_node_query : Option (Row → Bool))
    (return_as_wave_front : Bool) (target_wave_front : Option DF) :
    Except String Plottable :=
  match hopLoop
      (mkCtx g2 edges_indexed EDGE_ID nodesDF nodeCol srcCol dstCol
        to_fixed_point direction source_node_match destination_node_match
        source_node_query destination_node_query return_as_wave_front
        target_wave_front)
      (hopFuel
        (mkCtx g2 edges_indexed EDGE_ID nodesDF nodeCol srcCol dstCol
          to_fixed_point direction source_node_match destination_node_match
          source_node_query destination_node_query return_as_wave_front
          target_wave_front)
        hops)
      (initState hops) with
  | none => Except.error "internal: fuel exhausted"
  | some stF =>
    Except.ok (hydrate self g2 edges_indexed EDGE_ID nodeCol target_wave_front stF)

/-- Lines 72-79: the edge indexer.  With no edge-id binding, fail on a
pre-existing `index` column, else filter the edges once and inject the
surrogate sequential id; with a binding, just filter once. -/
def indexEdges (g2 : Plottable) (edge_match : Option (List (String × Val)))
    (edge_query : Option (Row → Bool)) : Except String (DF × String) :=
  match g2._edge with
  | none =>
    if hasCol g2._edges "index" then
      Except.error "Edges cannot have column index, please remove or set as edge id"
    else
      Except.ok (reset_index (query_if_not_none edge_query
        ((g2.filter_edges_by_dict edge_match)._edges)), "index")
  | some e =>
    Except.ok (query_if_not_none edge_query
      ((g2.filter_edges_by_dict edge_match)._edges), e)

/-- Line 69-70: the starting node set defaults to the full node table. -/
def nodesOrDefault (nodes : Option DF) (g2 : Plottable) : DF :=
  match nodes with
  | some df => df
  | none => g2._nodes.getD []

/-- The `hop` entry point (`hop.py` lines 18-222): validation, edge
indexing, binding checks, loop, hydration. -/
def hop (self : Plottable) (nodes : Option DF) (hops : Option Int)
    (to_fixed_point : Bool) (direction : String)
    (edge_match : Option (List (String × Val)))
    (source_node_match : Option (List (String × Val)))
    (destination_node_match : Option (List (String × Val)))
    (source_node_query : Option (Row → Bool))
    (destination_node_query : Option (Row → Bool))
    (edge_query : Option (Row → Bool))
    (return_as_wave_front : Bool) (target_wave_front : Option DF) :
    Except String Plottable :=
  if ¬ to_fixed_point ∧ hops = none then
    Except.error "Must provide hops int when to_fixed_point is False"
  else if ¬ (direction = "forward" ∨ direction = "reverse" ∨ direction = "undirected") then
    Except.error "Invalid direction"
  else
    let destination_node_match :=
      if destination_node_match = some [] then none else destination_node_match
    let g2 := self.materialize_nodes
    let nodesDF := nodesOrDefault nodes g2
    match indexEdges g2 edge_match edge_query with
    | Except.error msg => Except.error msg
    | Except.ok (edges_indexed, EDGE_ID) =>
      match g2._node with
      | none => Except.error "Node binding cannot be None"
      | some nodeCol =>
        match g2._source, g2._destination with
        | some srcCol, some dstCol =>
          hopRun self g2 edges_indexed EDGE_ID nodesDF nodeCol srcCol dstCol
            hops to_fixed_point direction source_node_match destination_node_match
            source_node_query destination_node_query return_as_wave_front
            target_wave_front
        | _, _ =>
          Except.error "Source and destination binding cannot be None"

/-! ### Basic lemmas about the dataframe operations -/

theorem rlookup_append (a b : Row) (c : String) :
    rlookup (a ++ b) c = ((rlookup a c).rec (rlookup b c) (fun v => some v)) := by
  induction a with
  | nil => simp [rlookup]
  | cons kv r ih =>
    by_cases h : kv.1 = c
    · simp [rlookup, h]
    · simp [rlookup, h, ih]

theorem rlookup_filter_ne (r : Row) (k c : String) :
    rlookup (r.filter (fun kv => kv.1 ≠ k)) c
      = if c = k then none else rlookup r c := by
  induction r with
  | nil => simp [rlookup]
  | cons kv r ih =>
    by_cases hk : kv.1 = k
    · rw [List.filter_cons_of_neg (by simp [hk]), ih]
      by_cases hc : c = k
      · simp [hc]
      · have hkc : ¬ kv.1 = c := fun h => hc (h ▸ hk)
        simp [rlookup, hc, hkc]
    · rw [List.filter_cons_of_pos (by simp [hk])]
      by_cases hc : kv.1 = c
      · have hck : ¬ c = k := fun h => hk (hc.trans h)
        simp only [rlookup, hc, if_pos rfl, if_neg hck]
        have hkc2 : kv.1 = c := hc
        simp [rlookup, hkc2]
      · simp only [rlookup, hc, if_neg hc, ih]
        by_cases h2 : c = k <;> simp [h2, rlookup, hc]

theorem rlookup_combineRow (k : String) (rl rr : Row) (c : String) :
    rlookup (combineRow k rl rr) c
      = match rlookup rl c with
        | some v => some v
        | none => if c = k then none else rlookup rr c := by
  unfold combineRow
  rw [rlookup_append, rlookup_filter_ne]
  cases h : rlookup rl c <;> simp

theorem selectCols_cons (c0 : String) (cs : List String) (r : Row) :
    selectCols (c0 :: cs) r
      = (match rlookup r c0 with | some v => [(c0, v)] | none => [])
          ++ selectCols cs r := by
  unfold selectCols
  cases h : rlookup r c0 <;> simp [List.filterMap_cons, h]

theorem rlookup_selectCols (cs : List String) (r : Row) (c : String) :
    rlookup (selectCols cs r) c = if c ∈ cs then rlookup r c else none := by
  induction cs with
  | nil => simp [selectCols, rlookup]
  | cons c0 cs ih =>
    rw [selectCols_cons]
    by_cases h0 : c = c0
    · subst h0
      cases h : rlookup r c with
      | none =>
        simp only [List.nil_append, ih]
        by_cases hc : c ∈ cs <;> simp [hc, h]
      | some v =>
        simp [rlookup, h]
    · cases h : rlookup r c0 with
      | none =>
        simp only [List.nil_append, ih]
        simp [h0]
      | some v =>
        rw [List.singleton_append]
        simp only [rlookup, if_neg (fun hh : c0 = c => h0 hh.symm)]
        rw [ih]
        simp [h0]

theorem mem_innerMerge {l r : DF} {k : String} {x : Row} :
    x ∈ innerMerge l r k
      ↔ ∃ rl ∈ l, ∃ rr ∈ r, rlookup rr k = rlookup rl k ∧ x = combineRow k rl rr := by
  unfold innerMerge
  simp only [List.mem_flatMap, List.mem_map, List.mem_filter, decide_eq_true_eq]
  constructor
  · rintro ⟨rl, hrl, rr, ⟨hrr, hk⟩, hx⟩
    exact ⟨rl, hrl, rr, hrr, hk, hx.symm⟩
  · rintro ⟨rl, hrl, rr, hrr, hk, hx⟩
    exact ⟨rl, hrl, rr, ⟨hrr, hk⟩, hx.symm⟩

theorem innerMerge_nil_right (l : DF) (k : String) : innerMerge l [] k = [] := by
  unfold innerMerge
  simp

theorem mem_dedupAux {α : Type} [DecidableEq α] {seen : List α} {l : List α} {x : α} :
    x ∈ dedupAux seen l ↔ x ∈ l ∧ x ∉ seen := by
  induction l generalizing seen with
  | nil => simp [dedupAux]
  | cons a as ih =>
    unfold dedupAux
    by_cases ha : a ∈ seen
    · rw [if_pos ha, ih]
      constructor
      · rintro ⟨h1, h2⟩; exact ⟨List.mem_cons_of_mem _ h1, h2⟩
      · rintro ⟨h1, h2⟩
        rcases List.mem_cons.mp h1 with rfl | h
        · exact absurd ha h2
        · exact ⟨h, h2⟩
    · rw [if_neg ha]
      constructor
      · intro hx
        rcases List.mem_cons.mp hx with rfl | hx2
        · exact ⟨List.mem_cons_self _ _, ha⟩
        · obtain ⟨h1, h2⟩ := ih.mp hx2
          exact ⟨List.mem_cons_of_mem _ h1,
            fun hs => h2 (List.mem_cons_of_mem _ hs)⟩
      · rintro ⟨h1, h2⟩
        rcases List.mem_cons.mp h1 with rfl | h1
        · exact List.mem_cons_self _ _
        · by_cases hxa : x = a
          · subst hxa; exact List.mem_cons_self _ _
          · refine List.mem_cons_of_mem _ (ih.mpr ⟨h1, ?_⟩)
            intro hx
            rcases List.mem_cons.mp hx with h | h
            · exact hxa h
            · exact h2 h

theorem mem_dedupG {α : Type} [DecidableEq α] {l : List α} {x : α} :
    x ∈ dedupG l ↔ x ∈ l := by
  unfold dedupG
  rw [mem_dedupAux]
  simp

theorem nodup_dedupAux {α : Type} [DecidableEq α] (seen : List α) (l : List α) :
    (dedupAux seen l).Nodup := by
  induction l generalizing seen with
  | nil => simp [dedupAux]
  | cons a as ih =>
    unfold dedupAux
    by_cases ha : a ∈ seen
    · rw [if_pos ha]; exact ih seen
    · rw [if_neg ha]
      refine List.nodup_cons.mpr ⟨fun hmem => ?_, ih (a :: seen)⟩
      exact (mem_dedupAux.mp hmem).2 (List.mem_cons_self a seen)

theorem nodup_dedupG {α : Type} [DecidableEq α] (l : List α) : (dedupG l).Nodup :=
  nodup_dedupAux [] l

theorem mem_dedupByAux {f : Row → Option Val} {seen : List (Option Val)} {l : DF} {x : Row} :
    x ∈ dedupByAux f seen l → x ∈ l ∧ f x ∉ seen := by
  induction l generalizing seen with
  | nil => simp [dedupByAux]
  | cons a as ih =>
    unfold dedupByAux
    by_cases ha : f a ∈ seen
    · rw [if_pos ha]
      intro h
      obtain ⟨h1, h2⟩ := ih h
      exact ⟨List.mem_cons_of_mem _ h1, h2⟩
    · rw [if_neg ha]
      intro h
      rcases List.mem_cons.mp h with rfl | h
      · exact ⟨List.mem_cons_self _ _, ha⟩
      · obtain ⟨h1, h2⟩ := ih h
        exact ⟨List.mem_cons_of_mem _ h1, fun hx => h2 (List.mem_cons_of_mem _ hx)⟩

theorem mem_dedupBy {f : Row → Option Val} {l : DF} {x : Row} :
    x ∈ dedupBy f l → x ∈ l := by
  intro h; exact (mem_dedupByAux h).1

theorem keys_pairwise_dedupByAux (f : Row → Option Val) (seen : List (Option Val)) (l : DF) :
    (dedupByAux f seen l).Pairwise (fun a b => f a ≠ f b) := by
  induction l generalizing seen with
  | nil => simp [dedupByAux]
  | cons a as ih =>
    unfold dedupByAux
    by_cases ha : f a ∈ seen
    · rw [if_pos ha]; exact ih seen
    · rw [if_neg ha]
      refine List.pairwise_cons.mpr ⟨fun b hb hfb => ?_, ih (f a :: seen)⟩
      exact (mem_dedupByAux hb).2 (hfb ▸ List.mem_cons_self (f a) seen)

theorem nodup_dedupBy (f : Row → Option Val) (l : DF) : (dedupBy f l).Nodup := by
  have h := keys_pairwise_dedupByAux f [] l
  exact h.imp (fun hne heq => hne (by rw [heq]))

theorem mem_filter_by_dict {df : DF} {d : Option (List (String × Val))} {r : Row} :
    r ∈ filter_by_dict df d → r ∈ df := by
  unfold filter_by_dict
  match d with
  | none => exact fun h => h
  | some [] => exact fun h => h
  | some (kv :: tl) => exact fun h => (List.mem_filter.mp h).1

theorem filter_by_dict_spec {df : DF} {m : List (String × Val)} {r : Row}
    (hm : m ≠ []) (hr : r ∈ filter_by_dict df (some m)) :
    ∀ kv ∈ m, rlookup r kv.1 = some kv.2 := by
  match m, hm with
  | kv0 :: tl, _ =>
    have := (List.mem_filter.mp hr).2
    simp only [List.all_eq_true, decide_eq_true_eq] at this
    exact this

theorem mem_query_if_not_none {q : Option (Row → Bool)} {df : DF} {r : Row} :
    r ∈ query_if_not_none q df → r ∈ df := by
  unfold query_if_not_none
  match q with
  | none => exact fun h => h
  | some p => exact fun h => (List.mem_filter.mp h).1

theorem query_if_not_none_spec {p : Row → Bool} {df : DF} {r : Row}
    (hr : r ∈ query_if_not_none (some p) df) : p r = true := by
  exact (List.mem_filter.mp hr).2

/-! ### `materialize_nodes` preserves everything except the node table -/

theorem materialize_nodes_edge (g : Plottable) :
    (g.materialize_nodes)._edge = g._edge := by
  unfold Plottable.materialize_nodes
  cases hn : g._nodes <;> cases hs : g._source <;> cases hd : g._destination <;>
    simp [hn, hs, hd]

theorem materialize_nodes_edges (g : Plottable) :
    (g.materialize_nodes)._edges = g._edges := by
  unfold Plottable.materialize_nodes
  cases hn : g._nodes <;> cases hs : g._source <;> cases hd : g._destination <;>
    simp [hn, hs, hd]

theorem materialize_nodes_source (g : Plottable) :
    (g.materialize_nodes)._source = g._source := by
  unfold Plottable.materialize_nodes
  cases hn : g._nodes <;> cases hs : g._source <;> cases hd : g._destination <;>
    simp [hn, hs, hd]

theorem materialize_nodes_destination (g : Plottable) :
    (g.materialize_nodes)._destination = g._destination := by
  unfold Plottable.materialize_nodes
  cases hn : g._nodes <;> cases hs : g._source <;> cases hd : g._destination <;>
    simp [hn, hs, hd]

theorem materialize_nodes_of_some (g : Plottable) {ns : DF} (h : g._nodes = some ns) :
    g.materialize_nodes = g := by
  unfold Plottable.materialize_nodes
  rw [h]

/-! ### C8: surrogate edge-id column collision is a fatal configuration error -/

/-- C8.  When the graph has no edge-id binding and the edges relation
already contains a column named `index` (the surrogate id slot), `hop`
raises a configuration error before any traversal, and never silently
overwrites that column.  (`hop.py` lines 72-76.) -/
theorem surrogate_column_collision_raises
    (self : Plottable) (nodes : Option DF) (hops : Option Int) (tfp : Bool)
    (direction : String) (em snm dnm : Option (List (String × Val)))
    (snq dnq eq2 : Option (Row → Bool)) (rawf : Bool) (twf : Option DF)
    (hhops : ¬ (tfp = false ∧ hops = none))
    (hdir : direction = "forward" ∨ direction = "reverse" ∨ direction = "undirected")
    (hedge : self._edge = none) (hcol : hasCol self._edges "index" = true) :
    hop self nodes hops tfp direction em snm dnm snq dnq eq2 rawf twf
      = Except.error "Edges cannot have column index, please remove or set as edge id" := by
  unfold hop
  have h1 : ¬ (¬ (tfp = true) ∧ hops = none) := by
    rintro ⟨ha, hb⟩
    exact hhops ⟨Bool.not_eq_true tfp ▸ (by simpa using ha), hb⟩
  rw [if_neg h1, if_neg (fun hC => hC hdir)]
  have hidx : indexEdges self.materialize_nodes em eq2
      = Except.error "Edges cannot have column index, please remove or set as edge id" := by
    unfold indexEdges
    rw [materialize_nodes_edge, hedge, materialize_nodes_edges, hcol]
    rfl
  simp only [hidx]

/-- C8 witness: a concrete nodeless-binding graph whose edges carry an
`index` column. -/
theorem surrogate_column_collision_raises_witness :
    hop { _nodes := some [[("id", 0)]],
          _edges := [[("s", 0), ("d", 1), ("index", 9)]],
          _node := some "id", _source := some "s",
          _destination := some "d", _edge := none }
        none (some 1) false "forward" none none none none none none false none
      = Except.error "Edges cannot have column index, please remove or set as edge id" :=
  surrogate_column_collision_raises _ none (some 1) false "forward"
    none none none none none none false none
    (by simp) (Or.inl rfl) rfl rfl

/-! ### C10: duplicate edge ids are never validated; hydration returns
every row sharing a matched id -/

/-- The C10 graph: an explicit edge-id binding `e`, and two distinct edge
rows that share the id `7`.  Only the first row (`0 → 1`) is reachable
from the start node `0`; the second row (`5 → 6`) is not. -/
def dupIdGraph : Plottable :=
  { _nodes := some [[("id", 0)], [("id", 1)], [("id", 5)], [("id", 6)]]
    _edges := [[("s", 0), ("d", 1), ("e", 7)], [("s", 5), ("d", 6), ("e", 7)]]
    _node := some "id", _source := some "s", _destination := some "d",
    _edge := some "e" }

/-- C10.  `hop` never validates uniqueness of a caller-supplied edge-id
column: on `dupIdGraph` it returns without error, and although only the
edge `0 → 1` is traversed (the result node set is exactly `{0, 1}`), both
rows sharing id `7` appear in the output edge relation, because matched
edges are deduplicated by edge id and hydration joins the full indexed
edge relation back on that id.  (`hop.py` lines 77-79, 165-171, 204-207.) -/
theorem duplicate_edge_id_hydrates_both_rows :
    hop dupIdGraph (some [[("id", 0)]]) (some 1) false "forward"
        none none none none none none false none
      = Except.ok
        { _nodes := some [[("id", 0)], [("id", 1)]]
          _edges := [[("s", 0), ("d", 1), ("e", 7)], [("s", 5), ("d", 6), ("e", 7)]]
          _node := some "id", _source := some "s", _destination := some "d",
          _edge := some "e" } := by
  decide

/-! ### Reducing `hop` to `hopRun` under a valid configuration -/

theorem hop_eq_hopRun
    (self : Plottable) (nodes : Option DF) (hops : Option Int) (tfp : Bool)
    (direction : String) (em snm dnm : Option (List (String × Val)))
    (snq dnq eq2 : Option (Row → Bool)) (rawf : Bool) (twf : Option DF)
    (ei : DF) (eidc n sc dc : String)
    (hval : ¬ (tfp = false ∧ hops = none))
    (hdir : direction = "forward" ∨ direction = "reverse" ∨ direction = "undirected")
    (hie : indexEdges self.materialize_nodes em eq2 = Except.ok (ei, eidc))
    (hn : (self.materialize_nodes)._node = some n)
    (hs : (self.materialize_nodes)._source = some sc)
    (hd : (self.materialize_nodes)._destination = some dc) :
    hop self nodes hops tfp direction em snm dnm snq dnq eq2 rawf twf
      = hopRun self self.materialize_nodes ei eidc
          (nodesOrDefault nodes self.materialize_nodes)
          n sc dc hops tfp direction snm
          (if dnm = some [] then none else dnm) snq dnq rawf twf := by
  unfold hop
  have h1 : ¬ (¬ (tfp = true) ∧ hops = none) := by
    rintro ⟨ha, hb⟩
    exact hval ⟨by simpa using ha, hb⟩
  rw [if_neg h1, if_neg (fun hC => hC hdir)]
  simp only [hie, hn, hs, hd]

/-! ### C6: a hop budget below one short-circuits to an empty result -/

/-- With `to_fixed_point` off, a state holding fewer than one remaining
hop makes the loop break immediately, leaving the state untouched. -/
theorem hopLoop_budget_exhausted (c : HopCtx) (st : LoopState) (fuel : Nat)
    (h : Int) (htfp : c.to_fixed_point = false)
    (hh : st.hops_remaining = some h) (hlt : h < 1) :
    hopLoop c (fuel + 1) st = some st := by
  unfold hopLoop hopStep
  rw [htfp, hh]
  simp [hlt]

/-- The packaged form of the previous lemma, at the fuel `hop` passes. -/
theorem hopLoop_hopFuel_budget (c : HopCtx) (h : Int)
    (htfp : c.to_fixed_point = false) (hlt : h < 1) :
    hopLoop c (hopFuel c (some h)) (initState (some h))
      = some (initState (some h)) := by
  have hfuel : hopFuel c (some h) = h.toNat + 1 := by
    unfold hopFuel
    rw [htfp]
    simp
  rw [hfuel]
  exact hopLoop_budget_exhausted c _ h.toNat h htfp rfl hlt

/-- Hydrating the initial state (no iteration executed) gives an empty
edge relation, and an empty node relation whenever the caller's graph has
one. -/
theorem hydrate_initState (self g2 : Plottable) (ei : DF) (eidc n : String)
    (twf : Option DF) (hops : Option Int) :
    (hydrate self g2 ei eidc n twf (initState hops))._edges = []
    ∧ (∀ ns, self._nodes = some ns
        → (hydrate self g2 ei eidc n twf (initState hops))._nodes = some []) := by
  unfold hydrate initState
  constructor
  · cases hsn : self._nodes <;>
      simp [hsn, innerMerge_nil_right, dropCol, Plottable.edges, Plottable.nodes]
  · intro ns hsn
    simp [hsn, innerMerge_nil_right, dropCol, Plottable.edges, Plottable.nodes]

/-- C6.  For every graph and direction (under a valid configuration:
direction and bindings resolvable, no surrogate-column collision), calling
`hop` with `hops < 1` and `to_fixed_point = false` returns without
raising: the matched-edge set is empty, so the output edge relation is
empty, and the output node relation is empty whenever the caller's graph
carries one; no traversal iteration is executed.  (`hop.py` lines 98-102,
204-219.) -/
theorem hops_below_one_short_circuits
    (self : Plottable) (nodes : Option DF) (h : Int) (direction : String)
    (em snm dnm : Option (List (String × Val)))
    (snq dnq eq2 : Option (Row → Bool)) (rawf : Bool) (twf : Option DF)
    (ei : DF) (eidc n sc dc : String)
    (hlt : h < 1)
    (hdir : direction = "forward" ∨ direction = "reverse" ∨ direction = "undirected")
    (hie : indexEdges self.materialize_nodes em eq2 = Except.ok (ei, eidc))
    (hn : (self.materialize_nodes)._node = some n)
    (hs : (self.materialize_nodes)._source = some sc)
    (hd : (self.materialize_nodes)._destination = some dc) :
    ∃ gOut,
      hop self nodes (some h) false direction em snm dnm snq dnq eq2 rawf twf
          = Except.ok gOut
        ∧ gOut._edges = []
        ∧ (∀ ns, self._nodes = some ns → gOut._nodes = some []) := by
  rw [hop_eq_hopRun self nodes (some h) false direction em snm dnm snq dnq eq2
    rawf twf ei eidc n sc dc (by simp) hdir hie hn hs hd]
  unfold hopRun
  rw [hopLoop_hopFuel_budget _ h rfl hlt]
  exact ⟨_, rfl, hydrate_initState _ _ _ _ _ _ _⟩

/-- C6 witness at a concrete graph with a zero hop budget. -/
theorem hops_below_one_short_circuits_witness :
    ∃ gOut,
      hop { _nodes := some [[("id", 0)], [("id", 1)]],
            _edges := [[("s", 0), ("d", 1)]],
            _node := some "id", _source := some "s",
            _destination := some "d", _edge := none }
          (some [[("id", 0)]]) (some 0) false "forward"
          none none none none none none false none
        = Except.ok gOut
      ∧ gOut._edges = []
      ∧ (∀ ns,
          ({ _nodes := some [[("id", 0)], [("id", 1)]],
             _edges := [[("s", 0), ("d", 1)]],
             _node := some "id", _source := some "s",
             _destination := some "d", _edge := none } : Plottable)._nodes = some ns
          → gOut._nodes = some []) :=
  hops_below_one_short_circuits _ _ 0 "forward" none none none none none none
    false none _ "index" "id" "s" "d" (by decide) (Or.inl rfl) rfl rfl rfl rfl

/-! ### C9: `target_wave_front` only restricts traversal when a
destination predicate is set -/

/-- Without a destination predicate, one loop iteration never reads
`base_target_nodes` (the `target_wave_front` substitute): the whole step
is invariant under replacing it. -/
theorem stepCore_base_target_irrelevant (c : HopCtx) (X : DF) (st : LoopState)
    (hops2 : Option Int) (hdp : hasDestPred c = false) :
    stepCore { c with base_target_nodes := X } st hops2 = stepCore c st hops2 := by
  rcases c with ⟨nodesDF, tfp, dirF, dirR, snm, snq, dnm, dnq, btn, rawf, ei, eid, n, s, d⟩
  unfold hasDestPred at hdp
  simp only at hdp
  cases dnq with
  | some q => simp at hdp
  | none =>
    cases dnm with
    | some m => simp at hdp
    | none => rfl

/-- The same invariance for the full step including the budget check. -/
theorem hopStep_base_target_irrelevant (c : HopCtx) (X : DF) (st : LoopState)
    (hdp : hasDestPred c = false) :
    hopStep { c with base_target_nodes := X } st = hopStep c st := by
  unfold hopStep
  have htf : ({ c with base_target_nodes := X } : HopCtx).to_fixed_point
      = c.to_fixed_point := rfl
  rw [htf]
  cases c.to_fixed_point with
  | false =>
    cases st.hops_remaining with
    | none => exact stepCore_base_target_irrelevant c X st _ hdp
    | some h =>
      by_cases hlt : h < 1
      · simp [hlt]
      · simp only [hlt, if_neg, ite_false]
        exact stepCore_base_target_irrelevant c X st _ hdp
  | true => exact stepCore_base_target_irrelevant c X st _ hdp

/-- The C9 graph: one edge `0 → 1`, a target wavefront holding only node
`0`, and no destination predicate. -/
def targetGraph : Plottable :=
  { _nodes := some [[("id", 0)], [("id", 1)]]
    _edges := [[("s", 0), ("d", 1)]]
    _node := some "id", _source := some "s", _destination := some "d",
    _edge := none }

/-- C9.  `target_wave_front` restricts candidate new node ids only when a
destination predicate is set: (i) with no destination predicate, every
loop step is invariant under replacing the target table, so candidate
edges and new node ids are not restricted by it; (ii) yet hydration still
inner-joins the final node relation against `target_wave_front`, so on
`targetGraph` the output contains the matched edge `0 → 1` whose far
endpoint `1` does not appear in the output node relation (which is only
`{0}`).  (`hop.py` lines 94-95, 126-137, 141-142, 211-220.) -/
theorem target_wave_front_only_restricts_with_dest_pred :
    (∀ (c : HopCtx) (X : DF) (st : LoopState), hasDestPred c = false →
      hopStep { c with base_target_nodes := X } st = hopStep c st)
    ∧ hop targetGraph (some [[("id", 0)]]) (some 1) false "forward"
        none none none none none none false (some [[("id", 0)]])
      = Except.ok
        { _nodes := some [[("id", 0)]]
          _edges := [[("s", 0), ("d", 1)]]
          _node := some "id", _source := some "s", _destination := some "d",
          _edge := none } :=
  ⟨fun c X st h => hopStep_base_target_irrelevant c X st h, by decide⟩

/-- C9 witness: the invariance applied at a concrete context and state. -/
theorem target_wave_front_only_restricts_with_dest_pred_witness :
    hopStep
        { nodesDF := [[("id", 0)]], to_fixed_point := false, dirF := true,
          dirR := false, source_node_match := none, source_node_query := none,
          destination_node_match := none, destination_node_query := none,
          base_target_nodes := [[("id", 5)]], return_as_wave_front := false,
          edges_indexed := [[("index", 0), ("s", 0), ("d", 1)]], eid := "index",
          n := "id", s := "s", d := "d" }
        (initState (some 1))
      = hopStep
        { nodesDF := [[("id", 0)]], to_fixed_point := false, dirF := true,
          dirR := false, source_node_match := none, source_node_query := none,
          destination_node_match := none, destination_node_query := none,
          base_target_nodes := [[("id", 0)]], return_as_wave_front := false,
          edges_indexed := [[("index", 0), ("s", 0), ("d", 1)]], eid := "index",
          n := "id", s := "s", d := "d" }
        (initState (some 1)) :=
  target_wave_front_only_restricts_with_dest_pred.1
    { nodesDF := [[("id", 0)]], to_fixed_point := false, dirF := true,
      dirR := false, source_node_match := none, source_node_query := none,
      destination_node_match := none, destination_node_query := none,
      base_target_nodes := [[("id", 0)]], return_as_wave_front := false,
      edges_indexed := [[("index", 0), ("s", 0), ("d", 1)]], eid := "index",
      n := "id", s := "s", d := "d" }
    [[("id", 5)]] (initState (some 1)) rfl

/-! ### C2: the wavefront is joined against the caller-supplied `nodes`
frame, not the full node table -/

theorem mem_leftMerge {l r : DF} {k : String} {x : Row} (hx : x ∈ leftMerge l r k) :
    ∃ rl ∈ l, x = rl
      ∨ ∃ rr ∈ r, rlookup rr k = rlookup rl k ∧ x = combineRow k rl rr := by
  unfold leftMerge at hx
  obtain ⟨rl, hrl, hmem⟩ := List.mem_flatMap.mp hx
  refine ⟨rl, hrl, ?_⟩
  cases hf : r.filter (fun rr => rlookup rr k = rlookup rl k) with
  | nil =>
    rw [hf] at hmem
    exact Or.inl (List.mem_singleton.mp hmem)
  | cons m ms =>
    rw [hf] at hmem
    obtain ⟨rr, hrr, hcomb⟩ := List.mem_map.mp hmem
    have hrr2 : rr ∈ r.filter (fun rr => rlookup rr k = rlookup rl k) := hf ▸ hrr
    obtain ⟨hrrr, hcond⟩ := List.mem_filter.mp hrr2
    exact Or.inr ⟨rr, hrrr, by simpa using hcond, hcomb.symm⟩

theorem rlookup_eq_none_of_keys (r : Row) (n k : String) (hk : k ≠ n)
    (h : ∀ kv ∈ r, kv.1 = n) : rlookup r k = none := by
  induction r with
  | nil => rfl
  | cons kv rest ih =>
    have h1 : kv.1 = n := h kv (List.mem_cons_self _ _)
    have h2 : ¬ (kv.1 = k) := fun hh => hk ((hh.symm.trans h1))
    simp only [rlookup]
    rw [if_neg h2]
    exact ih (fun kv2 hm => h kv2 (List.mem_cons_of_mem _ hm))

/-- C2 (amended).  In every iteration after the first, the source-node
predicates are applied to the wavefront left-joined against the
caller-supplied `nodes` frame, not against the full node table: a
wavefront node whose id does not occur in that frame keeps only its id
column after the join, so any `source_node_match` entry on a non-id
column filters it out — even when the node's full-attribute row would
have matched.  (`hop.py` lines 104-112.) -/
theorem missing_caller_row_fails_source_match
    (c : HopCtx) (st : LoopState) (v : Val) (m : List (String × Val))
    (k : String) (val : Val)
    (hfi : st.first_iter = false)
    (hshape : ∀ r ∈ st.wave_front, ∀ kv ∈ r, kv.1 = c.n)
    (hv : ∀ r ∈ c.nodesDF, rlookup r c.n ≠ some v)
    (hm : c.source_node_match = some m) (hkv : (k, val) ∈ m) (hk : k ≠ c.n) :
    ∀ r ∈ waveFrontIter c st, rlookup r c.n ≠ some v := by
  intro r hr hrv
  unfold waveFrontIter at hr
  rw [hfi] at hr
  simp only [if_neg Bool.false_ne_true] at hr
  obtain ⟨x, hx, hrx⟩ := List.mem_map.mp hr
  have hxq := mem_query_if_not_none hx
  rw [hm] at hxq
  have hdict := filter_by_dict_spec (List.ne_nil_of_mem hkv) hxq
  have hxk : rlookup x k = some val := hdict (k, val) hkv
  have hxmem := mem_filter_by_dict (d := some m) hxq
  have hxn : rlookup x c.n = some v := by
    rw [← hrx] at hrv
    rw [rlookup_selectCols] at hrv
    simpa using hrv
  obtain ⟨rl, hrl, hcase⟩ := mem_leftMerge hxmem
  rcases hcase with heq | ⟨rr, hrr, hcond, heq⟩
  · have hnone := rlookup_eq_none_of_keys rl c.n k hk (hshape rl hrl)
    rw [heq, hnone] at hxk
    exact Option.noConfusion hxk
  · rw [heq, rlookup_combineRow] at hxn
    cases hln : rlookup rl c.n with
    | some w =>
      rw [hln] at hxn
      simp only at hxn
      have : rlookup rr c.n = some v := by rw [hcond, hln, hxn]
      exact hv rr hrr this
    | none =>
      rw [hln] at hxn
      simp at hxn

/-- C2 amended-claim witness: a concrete post-first-iteration state whose
wavefront node `1` is missing from the caller frame and thus excluded. -/
theorem missing_caller_row_fails_source_match_witness :
    [("id", (1 : Int))] ∉ waveFrontIter
        { nodesDF := [[("id", 0), ("t", 1)]], to_fixed_point := false,
          dirF := true, dirR := false,
          source_node_match := some [("t", 1)], source_node_query := none,
          destination_node_match := none, destination_node_query := none,
          base_target_nodes := [[("id", 0), ("t", 1)]],
          return_as_wave_front := false,
          edges_indexed := [[("index", 0), ("s", 0), ("d", 1)]],
          eid := "index", n := "id", s := "s", d := "d" }
        { hops_remaining := some 1, wave_front := [[("id", 1)]],
          matches_nodes := some [[("id", 0)], [("id", 1)]],
          matches_edges := [[("index", 0)]], first_iter := false } := by
  intro hmem
  exact missing_caller_row_fails_source_match _ _ 1 [("t", 1)] "t" 1 rfl
    (by decide) (by decide) rfl (by decide) (by decide) _ hmem (by decide)

/-- The C2 graph: full node table `{0, 1, 2}`, every node carrying
`t = 1`, edges `0 → 1 → 2`. -/
def callerFrameGraph : Plottable :=
  { _nodes := some [[("id", 0), ("t", 1)], [("id", 1), ("t", 1)], [("id", 2), ("t", 1)]]
    _edges := [[("s", 0), ("d", 1)], [("s", 1), ("d", 2)]]
    _node := some "id", _source := some "s", _destination := some "d",
    _edge := none }

/-- C2 counterexample.  With `source_node_match = {t: 1}` and two hops
from node `0`, passing a caller `nodes` frame holding only node `0`
excludes the intermediate node `1` in the second iteration — the edge
`1 → 2` is never traversed and node `2` never reached — although node
`1` satisfies the predicate on its full attributes, as the `nodes = None`
run (which joins against the full table) shows.  So the source predicate
is not applied against the full node-attribute table. -/
theorem source_filter_uses_caller_frame_cex :
    hop callerFrameGraph (some [[("id", 0), ("t", 1)]]) (some 2) false "forward"
        none (some [("t", 1)]) none none none none false none
      = Except.ok
        { _nodes := some [[("id", 0), ("t", 1)], [("id", 1), ("t", 1)]]
          _edges := [[("s", 0), ("d", 1)]]
          _node := some "id", _source := some "s", _destination := some "d",
          _edge := none }
    ∧ hop callerFrameGraph none (some 2) false "forward"
        none (some [("t", 1)]) none none none none false none
      = Except.ok
        { _nodes := some [[("id", 0), ("t", 1)], [("id", 1), ("t", 1)],
                          [("id", 2), ("t", 1)]]
          _edges := [[("s", 0), ("d", 1)], [("s", 1), ("d", 2)]]
          _node := some "id", _source := some "s", _destination := some "d",
          _edge := none } := by
  constructor
  · decide
  · decide

/-! ### C5: edge predicates are applied once, before the loop -/

/-- All rows of a frame carry only the edge-id column. -/
def EdgeIdRows (eidc : String) (df : DF) : Prop :=
  ∀ r ∈ df, ∀ kv ∈ r, kv.1 = eidc

theorem mem_selectCols_keys {cs : List String} {r : Row} {kv : String × Val}
    (h : kv ∈ selectCols cs r) : kv.1 ∈ cs := by
  unfold selectCols at h
  obtain ⟨c, hc, hkv⟩ := List.mem_filterMap.mp h
  cases hl : rlookup r c with
  | none =>
    rw [hl] at hkv
    exact absurd hkv (by simp)
  | some v =>
    rw [hl] at hkv
    have hkv2 : some (c, v) = some kv := hkv
    have hkv3 : kv = (c, v) := (Option.some_inj.mp hkv2).symm
    rw [hkv3]
    exact hc

theorem edgeIdRows_selDF (eidc : String) (df : DF) :
    EdgeIdRows eidc (selDF [eidc] df) := by
  intro r hr kv hkv
  obtain ⟨x, _, hx⟩ := List.mem_map.mp hr
  rw [← hx] at hkv
  have := mem_selectCols_keys hkv
  simpa using this

theorem edgeIdRows_nil (eidc : String) : EdgeIdRows eidc [] := by
  intro r hr
  exact absurd hr (List.not_mem_nil r)

theorem edgeIdRows_dedupBy_append (eidc : String) (f : Row → Option Val)
    (a b c2 : DF) (ha : EdgeIdRows eidc a) (hb : EdgeIdRows eidc b)
    (hc : EdgeIdRows eidc c2) :
    EdgeIdRows eidc (dedupBy f (a ++ b ++ c2)) := by
  intro r hr
  have hmem := mem_dedupBy hr
  rcases List.mem_append.mp hmem with h1 | h1
  · rcases List.mem_append.mp h1 with h2 | h2
    · exact ha r h2
    · exact hb r h2
  · exact hc r h1

/-- One `stepCore` pass keeps the matched-edge frame shaped as pure
edge-id rows. -/
theorem edgeIdRows_optEdgeIds (eidc : String) (p : Option (DF × DF)) :
    EdgeIdRows eidc (optEdgeIds eidc p) := by
  cases p with
  | none => exact edgeIdRows_nil _
  | some fr => exact edgeIdRows_selDF _ _

theorem stepCore_edges_shape (c : HopCtx) (st : LoopState) (hops2 : Option Int)
    (h : EdgeIdRows c.eid st.matches_edges) :
    EdgeIdRows c.eid (Sum.elim id id (stepCore c st hops2)).matches_edges := by
  unfold stepCore
  split <;>
    exact edgeIdRows_dedupBy_append _ _ _ _ _ h
      (edgeIdRows_optEdgeIds _ _) (edgeIdRows_optEdgeIds _ _)

theorem hopStep_edges_shape (c : HopCtx) (st : LoopState)
    (h : EdgeIdRows c.eid st.matches_edges) :
    EdgeIdRows c.eid (Sum.elim id id (hopStep c st)).matches_edges := by
  unfold hopStep
  cases c.to_fixed_point with
  | true => exact stepCore_edges_shape c st _ h
  | false =>
    cases st.hops_remaining with
    | none => exact stepCore_edges_shape c st _ h
    | some hh =>
      by_cases hlt : hh < 1
      · simpa [hlt] using h
      · simpa [hlt] using stepCore_edges_shape c st (some (hh - 1)) h

theorem hopLoop_edges_shape (c : HopCtx) (fuel : Nat) (st stF : LoopState)
    (h : EdgeIdRows c.eid st.matches_edges)
    (hl : hopLoop c fuel st = some stF) :
    EdgeIdRows c.eid stF.matches_edges := by
  induction fuel generalizing st with
  | zero => exact absurd hl (by simp [hopLoop])
  | succ fuel ih =>
    unfold hopLoop at hl
    cases hs : hopStep c st with
    | inr st2 =>
      rw [hs] at hl
      have h2 := hopStep_edges_shape c st h
      rw [hs] at h2
      simp only [Sum.elim_inr, id] at h2
      simp only [Option.some_inj] at hl
      exact hl ▸ h2
    | inl st2 =>
      rw [hs] at hl
      have h2 := hopStep_edges_shape c st h
      rw [hs] at h2
      simp only [Sum.elim_inl, id] at h2
      exact ih st2 h2 hl

theorem combineRow_right_degenerate {k : String} {rl mr : Row}
    (h : ∀ kv ∈ mr, kv.1 = k) : combineRow k rl mr = rl := by
  unfold combineRow
  have : mr.filter (fun kv => kv.1 ≠ k) = [] := by
    rw [List.filter_eq_nil_iff]
    intro kv hkv
    simp [h kv hkv]
  rw [this, List.append_nil]

/-- Every output edge row comes from one row of the indexed edge table,
with at most the surrogate id column dropped. -/
theorem hydrate_edges_sub (self g2 : Plottable) (ei : DF) (eidc n : String)
    (twf : Option DF) (stF : LoopState)
    (hshape : EdgeIdRows eidc stF.matches_edges) :
    ∀ r ∈ (hydrate self g2 ei eidc n twf stF)._edges,
      ∃ r0 ∈ ei,
        r = (if hasCol self._edges eidc then r0
             else r0.filter (fun kv => kv.1 ≠ eidc)) := by
  intro r hr
  have hr2 : r ∈ (if hasCol self._edges eidc then innerMerge ei stF.matches_edges eidc
      else dropCol eidc (innerMerge ei stF.matches_edges eidc)) := by
    unfold hydrate at hr
    cases hsn : self._nodes <;>
      simpa [hsn, Plottable.edges, Plottable.nodes] using hr
  by_cases hcol : hasCol self._edges eidc
  · rw [if_pos hcol] at hr2
    obtain ⟨r0, hr0, mr, hmr, _, hcomb⟩ := mem_innerMerge.mp hr2
    refine ⟨r0, hr0, ?_⟩
    rw [if_pos hcol, hcomb, combineRow_right_degenerate (hshape mr hmr)]
  · rw [if_neg hcol] at hr2
    obtain ⟨x, hx, hxr⟩ := List.mem_map.mp hr2
    obtain ⟨r0, hr0, mr, hmr, _, hcomb⟩ := mem_innerMerge.mp hx
    refine ⟨r0, hr0, ?_⟩
    rw [if_neg hcol, ← hxr, hcomb, combineRow_right_degenerate (hshape mr hmr)]

theorem hasCol_false_keys {df : DF} {c : String} (h : hasCol df c = false) :
    ∀ r ∈ df, ∀ kv ∈ r, kv.1 ≠ c := by
  intro r hr kv hkv heq
  unfold hasCol at h
  rw [List.any_eq_false] at h
  have h2 := h r hr
  rw [List.any_eq_true] at h2
  exact h2 ⟨kv, hkv, by simp [heq]⟩

theorem mem_reset_index {df : DF} {r : Row} (h : r ∈ reset_index df) :
    ∃ i : Nat, ∃ q ∈ df, r = ("index", Int.ofNat i) :: q := by
  unfold reset_index at h
  obtain ⟨p, hp, hpr⟩ := List.mem_map.mp h
  refine ⟨p.1, p.2, ?_, hpr.symm⟩
  have hp2 : (p.1, p.2) ∈ df.enum := by simpa using hp
  exact List.getElem?_mem (List.mk_mem_enum_iff_getElem?.mp hp2)

theorem indexEdges_inv {g2 : Plottable} {em : Option (List (String × Val))}
    {eq2 : Option (Row → Bool)} {ei : DF} {eidc : String}
    (h : indexEdges g2 em eq2 = Except.ok (ei, eidc)) :
    (g2._edge = none ∧ eidc = "index" ∧ hasCol g2._edges "index" = false
      ∧ ei = reset_index (query_if_not_none eq2 (filter_by_dict g2._edges em)))
    ∨ (g2._edge = some eidc
      ∧ ei = query_if_not_none eq2 (filter_by_dict g2._edges em)) := by
  unfold indexEdges at h
  cases he : g2._edge with
  | none =>
    rw [he] at h
    by_cases hcol : hasCol g2._edges "index" = true
    · rw [if_pos hcol] at h
      exact absurd h (by simp)
    · rw [if_neg hcol] at h
      have h2 := Except.ok.inj h
      left
      refine ⟨rfl, (congrArg Prod.snd h2).symm, by simpa using hcol,
        (congrArg Prod.fst h2).symm⟩
  | some e =>
    rw [he] at h
    have h2 := Except.ok.inj h
    right
    have heq : e = eidc := congrArg Prod.snd h2
    exact ⟨heq ▸ rfl, (congrArg Prod.fst h2).symm⟩

theorem hopRun_ok_inv {self g2 : Plottable} {ei : DF} {eidc : String}
    {nodesDF : DF} {n sc dc : String} {hops : Option Int} {tfp : Bool}
    {direction : String} {snm dnm : Option (List (String × Val))}
    {snq dnq : Option (Row → Bool)} {rawf : Bool} {twf : Option DF}
    {gOut : Plottable}
    (h : hopRun self g2 ei eidc nodesDF n sc dc hops tfp direction snm dnm
        snq dnq rawf twf = Except.ok gOut) :
    ∃ stF, hopLoop
        (mkCtx g2 ei eidc nodesDF n sc dc tfp direction snm dnm snq dnq rawf twf)
        (hopFuel
          (mkCtx g2 ei eidc nodesDF n sc dc tfp direction snm dnm snq dnq rawf twf)
          hops)
        (initState hops) = some stF
      ∧ gOut = hydrate self g2 ei eidc n twf stF := by
  unfold hopRun at h
  cases hl : hopLoop
      (mkCtx g2 ei eidc nodesDF n sc dc tfp direction snm dnm snq dnq rawf twf)
      (hopFuel
        (mkCtx g2 ei eidc nodesDF n sc dc tfp direction snm dnm snq dnq rawf twf)
        hops)
      (initState hops) with
  | none =>
    rw [hl] at h
    exact absurd h (by simp)
  | some stF =>
    rw [hl] at h
    exact ⟨stF, rfl, (Except.ok.inj h).symm⟩

/-- C5.  Under a valid configuration, every row of the output edge
relation is a row of the original edge relation that passed `edge_match`
and `edge_query`; the predicates were applied exactly once, before the
loop (the loop only ever joins against the pre-filtered `edges_indexed`),
so an edge failing either predicate is never traversed in any iteration.
(`hop.py` lines 72-79, 204-207.) -/
theorem output_edges_satisfy_edge_predicates
    (self : Plottable) (nodes : Option DF) (hops : Option Int) (tfp : Bool)
    (direction : String) (em snm dnm : Option (List (String × Val)))
    (snq dnq eq2 : Option (Row → Bool)) (rawf : Bool) (twf : Option DF)
    (ei : DF) (eidc n sc dc : String) (gOut : Plottable)
    (hval : ¬ (tfp = false ∧ hops = none))
    (hdir : direction = "forward" ∨ direction = "reverse" ∨ direction = "undirected")
    (hie : indexEdges self.materialize_nodes em eq2 = Except.ok (ei, eidc))
    (hn : (self.materialize_nodes)._node = some n)
    (hs : (self.materialize_nodes)._source = some sc)
    (hd : (self.materialize_nodes)._destination = some dc)
    (hok : hop self nodes hops tfp direction em snm dnm snq dnq eq2 rawf twf
      = Except.ok gOut) :
    ∀ r ∈ gOut._edges,
      r ∈ query_if_not_none eq2 (filter_by_dict self._edges em)
      ∧ r ∈ self._edges
      ∧ (∀ m, em = some m → ∀ kv ∈ m, rlookup r kv.1 = some kv.2)
      ∧ (∀ p, eq2 = some p → p r = true) := by
  have finish2 : ∀ rr : Row,
      rr ∈ query_if_not_none eq2 (filter_by_dict self._edges em) →
      rr ∈ query_if_not_none eq2 (filter_by_dict self._edges em)
      ∧ rr ∈ self._edges
      ∧ (∀ m, em = some m → ∀ kv ∈ m, rlookup rr kv.1 = some kv.2)
      ∧ (∀ p, eq2 = some p → p rr = true) := by
    intro rr hrr
    refine ⟨hrr, mem_filter_by_dict (mem_query_if_not_none hrr), ?_, ?_⟩
    · intro m hm kv hkv
      rw [hm] at hrr
      exact filter_by_dict_spec (List.ne_nil_of_mem hkv)
        (mem_query_if_not_none hrr) kv hkv
    · intro p hp
      rw [hp] at hrr
      exact query_if_not_none_spec hrr
  rw [hop_eq_hopRun self nodes hops tfp direction em snm dnm snq dnq eq2
    rawf twf ei eidc n sc dc hval hdir hie hn hs hd] at hok
  obtain ⟨stF, hloop, hgOut⟩ := hopRun_ok_inv hok
  have hshape : EdgeIdRows eidc stF.matches_edges :=
    hopLoop_edges_shape _ _ _ _ (edgeIdRows_nil _) hloop
  have hedges : (self.materialize_nodes)._edges = self._edges :=
    materialize_nodes_edges self
  intro r hr
  rw [hgOut] at hr
  obtain ⟨r0, hr0, hform⟩ :=
    hydrate_edges_sub self self.materialize_nodes ei eidc n twf stF hshape r hr
  rcases indexEdges_inv hie with ⟨_, heidc, hcol, hei⟩ | ⟨_, hei⟩
  · subst heidc
    rw [hedges] at hcol hei
    rw [if_neg (by simp [hcol])] at hform
    rw [hei] at hr0
    obtain ⟨i, q, hq, hr0f⟩ := mem_reset_index hr0
    have hqe : q ∈ self._edges := mem_filter_by_dict (mem_query_if_not_none hq)
    have hqkeys := hasCol_false_keys hcol q hqe
    have hfq : q.filter (fun kv => kv.1 ≠ "index") = q :=
      List.filter_eq_self.mpr (fun kv hkv => by simpa using hqkeys kv hkv)
    have hrq : r = q := by
      rw [hform, hr0f, List.filter_cons_of_neg (by simp), hfq]
    rw [hrq]
    exact finish2 q hq
  · rw [hedges] at hei
    rw [hei] at hr0
    by_cases hcol2 : hasCol self._edges eidc = true
    · rw [if_pos hcol2] at hform
      rw [hform]
      exact finish2 r0 hr0
    · rw [if_neg hcol2] at hform
      have hr0e : r0 ∈ self._edges := mem_filter_by_dict (mem_query_if_not_none hr0)
      have hkeys := hasCol_false_keys (by simpa using hcol2) r0 hr0e
      have hfr : r0.filter (fun kv => kv.1 ≠ eidc) = r0 :=
        List.filter_eq_self.mpr (fun kv hkv => by simpa using hkeys kv hkv)
      rw [hform, hfr]
      exact finish2 r0 hr0

/-- C5 witness: a weight-filtered hop whose single output edge row indeed
satisfies the `edge_match` map and lies in the original edge table. -/
theorem output_edges_satisfy_edge_predicates_witness :
    [("s", (0 : Int)), ("d", 1), ("w", 5)]
        ∈ query_if_not_none none
          (filter_by_dict
            [[("s", (0 : Int)), ("d", 1), ("w", 5)], [("s", 1), ("d", 2), ("w", 3)]]
            (some [("w", 5)]))
      ∧ [("s", (0 : Int)), ("d", 1), ("w", 5)]
        ∈ [[("s", (0 : Int)), ("d", 1), ("w", 5)], [("s", 1), ("d", 2), ("w", 3)]]
      ∧ (∀ m, (some [("w", (5 : Int))] : Option (List (String × Val))) = some m
          → ∀ kv ∈ m, rlookup [("s", (0 : Int)), ("d", 1), ("w", 5)] kv.1 = some kv.2)
      ∧ (∀ p, (none : Option (Row → Bool)) = some p
          → p [("s", (0 : Int)), ("d", 1), ("w", 5)] = true) :=
  output_edges_satisfy_edge_predicates
    { _nodes := some [[("id", 0)], [("id", 1)], [("id", 2)]],
      _edges := [[("s", 0), ("d", 1), ("w", 5)], [("s", 1), ("d", 2), ("w", 3)]],
      _node := some "id", _source := some "s", _destination := some "d",
      _edge := none }
    (some [[("id", 0)]]) (some 1) false "forward" (some [("w", 5)])
    none none none none none false none
    (reset_index (query_if_not_none none
      (filter_by_dict
        [[("s", (0 : Int)), ("d", 1), ("w", 5)], [("s", 1), ("d", 2), ("w", 3)]]
        (some [("w", 5)]))))
    "index" "id" "s" "d"
    { _nodes := some [[("id", 0)], [("id", 1)]],
      _edges := [[("s", 0), ("d", 1), ("w", 5)]],
      _node := some "id", _source := some "s", _destination := some "d",
      _edge := none }
    (by simp) (Or.inl rfl) (by decide) rfl rfl rfl (by decide)
    [("s", 0), ("d", 1), ("w", 5)] (by decide)

/-! ### C3: first-iteration seeding of the result node set -/

theorem dedupG_length_eq_imp_subset {α : Type} [DecidableEq α] {m n : List α}
    (hm : m.Nodup) (hlen : (dedupG (m ++ n)).length = m.length) :
    ∀ x ∈ n, x ∈ m := by
  have hsub : m ⊆ dedupG (m ++ n) := fun x hx =>
    mem_dedupG.mpr (List.mem_append.mpr (Or.inl hx))
  obtain ⟨l, hlm, hld⟩ := List.subperm_of_subset hm hsub
  have hll : l.length = (dedupG (m ++ n)).length := by
    rw [hlen, hlm.length_eq]
  have hle : l = dedupG (m ++ n) := hld.eq_of_length hll
  intro x hx
  have hxd : x ∈ dedupG (m ++ n) :=
    mem_dedupG.mpr (List.mem_append.mpr (Or.inr hx))
  exact hlm.mem_iff.mp (hle ▸ hxd)

/-- A single-id row: either empty (a `NaN` endpoint) or one node-id cell. -/
def IdShaped (n : String) (r : Row) : Prop :=
  r = [] ∨ ∃ v, r = [(n, v)]

theorem idShaped_key_det {n : String} {x y : Row}
    (hx : IdShaped n x) (hy : IdShaped n y)
    (h : rlookup x n = rlookup y n) : x = y := by
  rcases hx with rfl | ⟨v, rfl⟩ <;> rcases hy with rfl | ⟨w, rfl⟩
  · rfl
  · simp [rlookup] at h
  · simp [rlookup] at h
  · simp only [rlookup, if_pos rfl] at h
    rw [Option.some_inj.mp h]

theorem renameSel_shaped (s n : String) (df : DF) :
    ∀ r ∈ renameCol s n (selDF [s] df), IdShaped n r := by
  intro r hr
  obtain ⟨x, hx, hxr⟩ := List.mem_map.mp hr
  obtain ⟨y, _, hyx⟩ := List.mem_map.mp hx
  rw [← hxr, ← hyx]
  rw [selectCols_cons]
  cases h : rlookup y s with
  | none =>
    left
    simp [selectCols]
  | some v =>
    right
    exact ⟨v, by simp [selectCols]⟩

theorem optSeedF_shaped (c : HopCtx) (p : Option (DF × DF)) :
    ∀ r ∈ optSeedF c p, IdShaped c.n r := by
  intro r hr
  cases p with
  | none => exact absurd hr (List.not_mem_nil r)
  | some fr =>
    unfold optSeedF at hr
    exact renameSel_shaped c.s c.n fr.1 r (mem_dedupG.mp hr)

theorem optSeedR_shaped (c : HopCtx) (p : Option (DF × DF)) :
    ∀ r ∈ optSeedR c p, IdShaped c.n r := by
  intro r hr
  cases p with
  | none => exact absurd hr (List.not_mem_nil r)
  | some rv =>
    unfold optSeedR at hr
    exact renameSel_shaped c.d c.n rv.1 r (mem_dedupG.mp hr)

theorem mem_dedupByAux_of_det {f : Row → Option Val} {l : DF}
    (hdet : ∀ x ∈ l, ∀ y ∈ l, f x = f y → x = y) :
    ∀ {seen : List (Option Val)} {r}, r ∈ l → f r ∉ seen → r ∈ dedupByAux f seen l := by
  induction l with
  | nil => intro seen r hr; exact absurd hr (List.not_mem_nil r)
  | cons a as ih =>
    intro seen r hr hs
    have hdet2 : ∀ x ∈ as, ∀ y ∈ as, f x = f y → x = y := fun x hx y hy =>
      hdet x (List.mem_cons_of_mem _ hx) y (List.mem_cons_of_mem _ hy)
    unfold dedupByAux
    by_cases ha : f a ∈ seen
    · rw [if_pos ha]
      rcases List.mem_cons.mp hr with rfl | hr2
      · exact absurd ha hs
      · exact ih hdet2 hr2 hs
    · rw [if_neg ha]
      rcases List.mem_cons.mp hr with rfl | hr2
      · exact List.mem_cons_self _ _
      · by_cases hfa : f r = f a
        · have : r = a :=
            hdet r (List.mem_cons_of_mem _ hr2) a (List.mem_cons_self _ _) hfa
          rw [this]
          exact List.mem_cons_self _ _
        · refine List.mem_cons_of_mem _ (ih hdet2 hr2 ?_)
          intro hmem
          rcases List.mem_cons.mp hmem with h | h
          · exact hfa h
          · exact hs h

theorem mem_dedupBy_of_det {f : Row → Option Val} {l : DF}
    (hdet : ∀ x ∈ l, ∀ y ∈ l, f x = f y → x = y) {r : Row} (hr : r ∈ l) :
    r ∈ dedupBy f l :=
  mem_dedupByAux_of_det hdet hr (List.not_mem_nil _)

/-- Membership in the first-iteration seed is preserved from either
direction contribution. -/
theorem mem_seedNodes (c : HopCtx) (fwd? rev? : Option (DF × DF)) {r : Row}
    (hr : r ∈ optSeedF c fwd? ++ optSeedR c rev?) :
    r ∈ seedNodes c fwd? rev? := by
  unfold seedNodes
  refine mem_dedupBy_of_det ?_ hr
  intro x hx y hy hf
  have hxs : IdShaped c.n x := by
    rcases List.mem_append.mp hx with h | h
    · exact optSeedF_shaped c fwd? x h
    · exact optSeedR_shaped c rev? x h
  have hys : IdShaped c.n y := by
    rcases List.mem_append.mp hy with h | h
    · exact optSeedF_shaped c fwd? y h
    · exact optSeedR_shaped c rev? y h
  exact idShaped_key_det hxs hys hf

/-- The result node set never loses a row across one step. -/
theorem hopStep_matches_mono (c : HopCtx) (st st2 : LoopState) (m : DF)
    (hm : st.matches_nodes = some m)
    (h : hopStep c st = Sum.inl st2 ∨ hopStep c st = Sum.inr st2) :
    ∃ m2, st2.matches_nodes = some m2 ∧ ∀ r ∈ m, r ∈ m2 := by
  have hcur : stepMatchesCur c st = m := by
    unfold stepMatchesCur
    rw [hm]
  have hcore : ∀ hops2, stepCore c st hops2 = Sum.inl st2
      ∨ stepCore c st hops2 = Sum.inr st2
      → ∃ m2, st2.matches_nodes = some m2 ∧ ∀ r ∈ m, r ∈ m2 := by
    intro hops2 hc
    unfold stepCore at hc
    by_cases hfix : (stepCombined c st).length = (stepMatchesCur c st).length
    · rw [if_pos hfix] at hc
      rcases hc with hc | hc
      · exact absurd hc (by simp)
      · have := Sum.inr.inj hc
        refine ⟨stepMatchesCur c st, by rw [← this], ?_⟩
        rw [hcur]
        exact fun r hr => hr
    · rw [if_neg hfix] at hc
      rcases hc with hc | hc
      · have := Sum.inl.inj hc
        refine ⟨stepCombined c st, by rw [← this], ?_⟩
        intro r hr
        unfold stepCombined
        rw [hcur]
        exact mem_dedupG.mpr (List.mem_append.mpr (Or.inl hr))
      · exact absurd hc (by simp)
  unfold hopStep at h
  rcases htf : c.to_fixed_point with _ | _
  · rw [htf] at h
    rcases hh : st.hops_remaining with _ | h0
    · rw [hh] at h
      dsimp only at h
      exact hcore _ h
    · rw [hh] at h
      dsimp only at h
      by_cases hlt : h0 < 1
      · rw [if_pos hlt] at h
        rcases h with h | h
        · exact absurd h (by simp)
        · have := Sum.inr.inj h
          exact ⟨m, by rw [← this, hm], fun r hr => hr⟩
      · rw [if_neg hlt] at h
        exact hcore _ h
  · rw [htf] at h
    dsimp only at h
    exact hcore _ h

/-- Monotonicity over the whole loop. -/
theorem hopLoop_matches_mono (c : HopCtx) (fuel : Nat) (st stF : LoopState)
    (m : DF) (hm : st.matches_nodes = some m)
    (hl : hopLoop c fuel st = some stF) :
    ∃ mF, stF.matches_nodes = some mF ∧ ∀ r ∈ m, r ∈ mF := by
  induction fuel generalizing st m with
  | zero => exact absurd hl (by simp [hopLoop])
  | succ fuel ih =>
    unfold hopLoop at hl
    cases hs : hopStep c st with
    | inr st2 =>
      rw [hs] at hl
      obtain ⟨m2, hm2, hsub⟩ := hopStep_matches_mono c st st2 m hm (Or.inr hs)
      exact ⟨m2, (Option.some_inj.mp hl) ▸ hm2, hsub⟩
    | inl st2 =>
      rw [hs] at hl
      obtain ⟨m2, hm2, hsub⟩ := hopStep_matches_mono c st st2 m hm (Or.inl hs)
      obtain ⟨mF, hmF, hsub2⟩ := ih st2 m2 hm2 hl
      exact ⟨mF, hmF, fun r hr => hsub2 r (hsub r hr)⟩

/-- In wavefront mode every accumulated result row was some iteration's
newly reached node id. -/
theorem hopLoop_reached_only (c : HopCtx) (fuel : Nat) (st stF : LoopState)
    (hrawf : c.return_as_wave_front = true)
    (hinv : ∀ m, st.matches_nodes = some m → ∀ r ∈ m, ∃ st2, r ∈ stepNewIds c st2)
    (hl : hopLoop c fuel st = some stF) :
    ∀ m, stF.matches_nodes = some m → ∀ r ∈ m, ∃ st2, r ∈ stepNewIds c st2 := by
  induction fuel generalizing st with
  | zero => exact absurd hl (by simp [hopLoop])
  | succ fuel ih =>
    have hcur : ∀ r ∈ stepMatchesCur c st, ∃ st2, r ∈ stepNewIds c st2 := by
      intro r hr
      unfold stepMatchesCur at hr
      cases hmn : st.matches_nodes with
      | some m =>
        rw [hmn] at hr
        exact hinv m hmn r hr
      | none =>
        rw [hmn, hrawf] at hr
        simp at hr
    have hstep : ∀ st2, hopStep c st = Sum.inl st2 ∨ hopStep c st = Sum.inr st2
        → ∀ m, st2.matches_nodes = some m
        → ∀ r ∈ m, ∃ st3, r ∈ stepNewIds c st3 := by
      intro st2 h m hm r hr
      have hcore : ∀ hops2, stepCore c st hops2 = Sum.inl st2
          ∨ stepCore c st hops2 = Sum.inr st2
          → ∃ st3, r ∈ stepNewIds c st3 := by
        intro hops2 hc
        unfold stepCore at hc
        by_cases hfix : (stepCombined c st).length = (stepMatchesCur c st).length
        · rw [if_pos hfix] at hc
          rcases hc with hc | hc
          · exact absurd hc (by simp)
          · have h2 := Sum.inr.inj hc
            rw [← h2] at hm
            simp only [Option.some_inj] at hm
            exact hcur r (hm ▸ hr)
        · rw [if_neg hfix] at hc
          rcases hc with hc | hc
          · have h2 := Sum.inl.inj hc
            rw [← h2] at hm
            simp only [Option.some_inj] at hm
            rw [← hm] at hr
            unfold stepCombined at hr
            rcases List.mem_append.mp (mem_dedupG.mp hr) with h3 | h3
            · exact hcur r h3
            · exact ⟨st, h3⟩
          · exact absurd hc (by simp)
      unfold hopStep at h
      rcases htf : c.to_fixed_point with _ | _
      · rw [htf] at h
        rcases hh : st.hops_remaining with _ | h0
        · rw [hh] at h
          dsimp only at h
          exact hcore _ h
        · rw [hh] at h
          dsimp only at h
          by_cases hlt : h0 < 1
          · rw [if_pos hlt] at h
            rcases h with h | h
            · exact absurd h (by simp)
            · have h2 := Sum.inr.inj h
              rw [← h2] at hm
              exact hinv m hm r hr
          · rw [if_neg hlt] at h
            exact hcore _ h
      · rw [htf] at h
        dsimp only at h
        exact hcore _ h
    unfold hopLoop at hl
    cases hs : hopStep c st with
    | inr st2 =>
      rw [hs] at hl
      intro m hm
      exact hstep st2 (Or.inr hs) m ((Option.some_inj.mp hl) ▸ hm)
    | inl st2 =>
      rw [hs] at hl
      exact ih st2 (fun m hm => hstep st2 (Or.inl hs) m hm) hl

theorem hopStep_not_blocked (c : HopCtx) (st : LoopState)
    (hnb : ∀ h0, c.to_fixed_point = false → st.hops_remaining = some h0 → ¬ h0 < 1) :
    ∃ hops2, hopStep c st = stepCore c st hops2 := by
  unfold hopStep
  rcases htf : c.to_fixed_point with _ | _
  · rcases hh : st.hops_remaining with _ | h0
    · exact ⟨none, rfl⟩
    · refine ⟨some (h0 - 1), ?_⟩
      dsimp only
      rw [if_neg (hnb h0 htf hh)]
  · exact ⟨st.hops_remaining, rfl⟩

theorem stepMatchesCur_init_rawf (c : HopCtx) (hops : Option Int)
    (hr : c.return_as_wave_front = true) :
    stepMatchesCur c (initState hops) = [] := by
  unfold stepMatchesCur initState
  simp [hr]

theorem stepMatchesCur_init_seeds (c : HopCtx) (hops : Option Int)
    (hr : c.return_as_wave_front = false) :
    stepMatchesCur c (initState hops)
      = seedNodes c (stepFwd c (initState hops)) (stepRev c (initState hops)) := by
  unfold stepMatchesCur initState
  simp [hr]

/-- After the first executed iteration (any outcome), the accumulated
result node set is defined and contains everything the first iteration
put into it: in non-wavefront mode the seed and the new node ids. -/
theorem stepCore_first_result (c : HopCtx) (hops hops2 : Option Int)
    (st2 : LoopState)
    (h : stepCore c (initState hops) hops2 = Sum.inl st2
      ∨ stepCore c (initState hops) hops2 = Sum.inr st2) :
    ∃ m2, st2.matches_nodes = some m2
      ∧ (c.return_as_wave_front = false →
          (∀ r ∈ seedNodes c (stepFwd c (initState hops)) (stepRev c (initState hops)),
            r ∈ m2)
          ∧ (∀ r ∈ stepNewIds c (initState hops), r ∈ m2)) := by
  unfold stepCore at h
  by_cases hfix : (stepCombined c (initState hops)).length
      = (stepMatchesCur c (initState hops)).length
  · rw [if_pos hfix] at h
    rcases h with h | h
    · exact absurd h (by simp)
    · have h2 := Sum.inr.inj h
      refine ⟨stepMatchesCur c (initState hops), by rw [← h2], ?_⟩
      intro hrawf
      rw [stepMatchesCur_init_seeds c hops hrawf] at hfix ⊢
      constructor
      · exact fun r hr => hr
      · have hnodup : (seedNodes c (stepFwd c (initState hops))
            (stepRev c (initState hops))).Nodup := nodup_dedupBy _ _
        have := dedupG_length_eq_imp_subset hnodup
          (by
            unfold stepCombined at hfix
            rw [stepMatchesCur_init_seeds c hops hrawf] at hfix
            exact hfix)
        exact this
  · rw [if_neg hfix] at h
    rcases h with h | h
    · have h2 := Sum.inl.inj h
      refine ⟨stepCombined c (initState hops), by rw [← h2], ?_⟩
      intro hrawf
      unfold stepCombined
      rw [stepMatchesCur_init_seeds c hops hrawf]
      constructor
      · intro r hr
        exact mem_dedupG.mpr (List.mem_append.mpr (Or.inl hr))
      · intro r hr
        exact mem_dedupG.mpr (List.mem_append.mpr (Or.inr hr))
    · exact absurd h (by simp)

theorem mem_optSeedF (c : HopCtx) (p : DF × DF) {e : Row} (he : e ∈ p.1)
    {v : Val} (hv : rlookup e c.s = some v) :
    [(c.n, v)] ∈ optSeedF c (some p) := by
  unfold optSeedF
  apply mem_dedupG.mpr
  apply List.mem_map.mpr
  refine ⟨selectCols [c.s] e, List.mem_map.mpr ⟨e, he, rfl⟩, ?_⟩
  rw [selectCols_cons, hv]
  simp [selectCols]

theorem mem_optSeedR (c : HopCtx) (p : DF × DF) {e : Row} (he : e ∈ p.1)
    {v : Val} (hv : rlookup e c.d = some v) :
    [(c.n, v)] ∈ optSeedR c (some p) := by
  unfold optSeedR
  apply mem_dedupG.mpr
  apply List.mem_map.mpr
  refine ⟨selectCols [c.d] e, List.mem_map.mpr ⟨e, he, rfl⟩, ?_⟩
  rw [selectCols_cons, hv]
  simp [selectCols]

/-- C3.  When `return_as_wave_front` is false, the result node set of the
loop includes the root endpoints of the first executed iteration — the
source endpoints of its forward-matched edges and the destination
endpoints of its reverse-matched edges — in addition to the newly reached
node ids; when `return_as_wave_front` is true, the result node set starts
empty (no seeding) and every row it ever holds is some iteration's newly
reached node id.  (`hop.py` lines 178-193.) -/
theorem first_hop_roots_in_result
    (c : HopCtx) (hops : Option Int) (fuel : Nat) (stF : LoopState)
    (hloop : hopLoop c (fuel + 1) (initState hops) = some stF)
    (hnb : ∀ h0, c.to_fixed_point = false → hops = some h0 → ¬ h0 < 1) :
    ∃ mF, stF.matches_nodes = some mF
      ∧ (c.return_as_wave_front = false →
          (∀ p, stepFwd c (initState hops) = some p →
            ∀ e ∈ p.1, ∀ v, rlookup e c.s = some v → [(c.n, v)] ∈ mF)
          ∧ (∀ p, stepRev c (initState hops) = some p →
            ∀ e ∈ p.1, ∀ v, rlookup e c.d = some v → [(c.n, v)] ∈ mF)
          ∧ (∀ r ∈ stepNewIds c (initState hops), r ∈ mF))
      ∧ (c.return_as_wave_front = true →
          stepMatchesCur c (initState hops) = []
          ∧ ∀ r ∈ mF, ∃ st2, r ∈ stepNewIds c st2) := by
  have hloop0 := hloop
  obtain ⟨hops2, hse⟩ := hopStep_not_blocked c (initState hops)
    (fun h0 htf hh => hnb h0 htf (by simpa [initState] using hh))
  have hfin : ∃ m1, ∃ st1,
      ((stepCore c (initState hops) hops2 = Sum.inl st1
          ∧ hopLoop c fuel st1 = some stF)
        ∨ (stepCore c (initState hops) hops2 = Sum.inr st1 ∧ st1 = stF))
      ∧ st1.matches_nodes = some m1
      ∧ (c.return_as_wave_front = false →
          (∀ r ∈ seedNodes c (stepFwd c (initState hops)) (stepRev c (initState hops)),
            r ∈ m1)
          ∧ (∀ r ∈ stepNewIds c (initState hops), r ∈ m1)) := by
    unfold hopLoop at hloop
    rw [hse] at hloop
    cases hsc : stepCore c (initState hops) hops2 with
    | inr st1 =>
      rw [hsc] at hloop
      obtain ⟨m1, hm1, hseed⟩ := stepCore_first_result c hops hops2 st1 (Or.inr hsc)
      exact ⟨m1, st1, Or.inr ⟨rfl, Option.some_inj.mp hloop⟩, hm1, hseed⟩
    | inl st1 =>
      rw [hsc] at hloop
      obtain ⟨m1, hm1, hseed⟩ := stepCore_first_result c hops hops2 st1 (Or.inl hsc)
      exact ⟨m1, st1, Or.inl ⟨rfl, hloop⟩, hm1, hseed⟩
  obtain ⟨m1, st1, hcase, hm1, hseed⟩ := hfin
  have hmono : ∃ mF, stF.matches_nodes = some mF ∧ ∀ r ∈ m1, r ∈ mF := by
    rcases hcase with ⟨_, hrest⟩ | ⟨_, hrest⟩
    · exact hopLoop_matches_mono c fuel st1 stF m1 hm1 hrest
    · exact ⟨m1, hrest ▸ hm1, fun r hr => hr⟩
  obtain ⟨mF, hmF, hsub⟩ := hmono
  refine ⟨mF, hmF, ?_, ?_⟩
  · intro hrawf
    obtain ⟨hseedsub, hnewsub⟩ := hseed hrawf
    refine ⟨?_, ?_, fun r hr => hsub r (hnewsub r hr)⟩
    · intro p hp e he v hv
      refine hsub _ (hseedsub _ (mem_seedNodes c _ _ ?_))
      apply List.mem_append.mpr
      left
      rw [hp]
      exact mem_optSeedF c p he hv
    · intro p hp e he v hv
      refine hsub _ (hseedsub _ (mem_seedNodes c _ _ ?_))
      apply List.mem_append.mpr
      right
      rw [hp]
      exact mem_optSeedR c p he hv
  · intro hrawf
    refine ⟨stepMatchesCur_init_rawf c hops hrawf, ?_⟩
    intro r hr
    exact hopLoop_reached_only c (fuel + 1) (initState hops) stF hrawf
      (by intro m hm; exact absurd hm (by simp [initState]))
      hloop0 mF hmF r hr

/-- A concrete context for the C3 witness: one edge `0 → 1`, start `{0}`,
forward direction, one hop, non-wavefront mode. -/
def seedCtx : HopCtx :=
  { nodesDF := [[("id", 0)]], to_fixed_point := false, dirF := true,
    dirR := false, source_node_match := none, source_node_query := none,
    destination_node_match := none, destination_node_query := none,
    base_target_nodes := [[("id", 0)], [("id", 1)]],
    return_as_wave_front := false,
    edges_indexed := [[("index", 0), ("s", 0), ("d", 1)]],
    eid := "index", n := "id", s := "s", d := "d" }

/-- The loop state the C3 witness run finishes in. -/
def seedFinal : LoopState :=
  { hops_remaining := some 0, wave_front := [[("id", 1)]],
    matches_nodes := some [[("id", 0)], [("id", 1)]],
    matches_edges := [[("index", 0)]], first_iter := false }

/-- C3 witness: the theorem applied to the concrete one-edge run. -/
theorem first_hop_roots_in_result_witness :
    ∃ mF, seedFinal.matches_nodes = some mF
      ∧ (seedCtx.return_as_wave_front = false →
          (∀ p, stepFwd seedCtx (initState (some 1)) = some p →
            ∀ e ∈ p.1, ∀ v, rlookup e seedCtx.s = some v → [(seedCtx.n, v)] ∈ mF)
          ∧ (∀ p, stepRev seedCtx (initState (some 1)) = some p →
            ∀ e ∈ p.1, ∀ v, rlookup e seedCtx.d = some v → [(seedCtx.n, v)] ∈ mF)
          ∧ (∀ r ∈ stepNewIds seedCtx (initState (some 1)), r ∈ mF))
      ∧ (seedCtx.return_as_wave_front = true →
          stepMatchesCur seedCtx (initState (some 1)) = []
          ∧ ∀ r ∈ mF, ∃ st2, r ∈ stepNewIds seedCtx st2) :=
  first_hop_roots_in_result seedCtx (some 1) 1 seedFinal (by decide)
    (fun h0 _ hh => by rw [← Option.some_inj.mp hh]; decide)

/-! ### C4: fixed-point termination -/

/-- The active frontier always carries only the node-id column. -/
theorem waveFrontIter_keys (c : HopCtx) (st : LoopState) :
    ∀ r ∈ waveFrontIter c st, ∀ kv ∈ r, kv.1 = c.n := by
  intro r hr kv hkv
  unfold waveFrontIter at hr
  obtain ⟨x, _, hx⟩ := List.mem_map.mp hr
  rw [← hx] at hkv
  simpa using mem_selectCols_keys hkv

/-- Looking a non-join column up in a merged-and-assigned row reads it
from the underlying edge row. -/
theorem combine_assigned_lookup (n col : String) (hcoln : col ≠ n)
    (rw base tail : Row) (hw : ∀ kv ∈ rw, kv.1 = n)
    (htail : ∀ kv ∈ tail, kv.1 = n) :
    rlookup (combineRow n rw (base.filter (fun kv => kv.1 ≠ n) ++ tail)) col
      = rlookup base col := by
  rw [rlookup_combineRow, rlookup_eq_none_of_keys rw n col hcoln hw]
  dsimp only
  rw [if_neg hcoln, rlookup_append, rlookup_filter_ne, if_neg hcoln]
  cases h : rlookup base col with
  | some v => rfl
  | none => exact rlookup_eq_none_of_keys tail n col hcoln htail

theorem hopEdgesForwardRaw_lookup (c : HopCtx) (wfi : DF)
    (hwfi : ∀ r ∈ wfi, ∀ kv ∈ r, kv.1 = c.n)
    {e : Row} (he : e ∈ hopEdgesForwardRaw c wfi)
    (col : String) (hmem : col ∈ ([c.s, c.d, c.eid] : List String))
    (hcoln : col ≠ c.n) :
    ∃ re ∈ c.edges_indexed, rlookup e col = rlookup re col := by
  unfold hopEdgesForwardRaw at he
  obtain ⟨x, hx, hxe⟩ := List.mem_map.mp he
  obtain ⟨rw, hrw, ra, hra, _, hxc⟩ := mem_innerMerge.mp hx
  unfold edgesAssignedF at hra
  obtain ⟨re, hre, hrae⟩ := List.mem_map.mp hra
  refine ⟨re, hre, ?_⟩
  rw [← hxe, rlookup_selectCols, if_pos hmem, hxc, ← hrae]
  rw [combine_assigned_lookup c.n col hcoln rw _ _ (hwfi rw hrw) ?_]
  · rw [rlookup_selectCols, if_pos hmem]
  · intro kv hkv
    cases hs : rlookup re c.s with
    | none => rw [hs] at hkv; exact absurd hkv (List.not_mem_nil kv)
    | some v =>
      rw [hs] at hkv
      have : kv = (c.n, v) := List.mem_singleton.mp hkv
      rw [this]

theorem hopEdgesReverseRaw_lookup (c : HopCtx) (wfi : DF)
    (hwfi : ∀ r ∈ wfi, ∀ kv ∈ r, kv.1 = c.n)
    {e : Row} (he : e ∈ hopEdgesReverseRaw c wfi)
    (col : String) (hmem : col ∈ ([c.d, c.s, c.eid] : List String))
    (hcoln : col ≠ c.n) :
    ∃ re ∈ c.edges_indexed, rlookup e col = rlookup re col := by
  unfold hopEdgesReverseRaw at he
  obtain ⟨x, hx, hxe⟩ := List.mem_map.mp he
  obtain ⟨rw, hrw, ra, hra, _, hxc⟩ := mem_innerMerge.mp hx
  unfold edgesAssignedR at hra
  obtain ⟨re, hre, hrae⟩ := List.mem_map.mp hra
  refine ⟨re, hre, ?_⟩
  rw [← hxe, rlookup_selectCols, if_pos hmem, hxc, ← hrae]
  rw [combine_assigned_lookup c.n col hcoln rw _ _ (hwfi rw hrw) ?_]
  · rw [rlookup_selectCols, if_pos hmem]
  · intro kv hkv
    cases hs : rlookup re c.d with
    | none => rw [hs] at hkv; exact absurd hkv (List.not_mem_nil kv)
    | some v =>
      rw [hs] at hkv
      have : kv = (c.n, v) := List.mem_singleton.mp hkv
      rw [this]

theorem mem_nodeRowUniverse_src (c : HopCtx) {re : Row} (hre : re ∈ c.edges_indexed) :
    (match rlookup re c.s with | some v => [(c.n, v)] | none => ([] : Row))
      ∈ nodeRowUniverse c := by
  unfold nodeRowUniverse
  exact mem_dedupG.mpr (List.mem_append.mpr (Or.inl
    (List.mem_map.mpr ⟨re, hre, rfl⟩)))

theorem mem_nodeRowUniverse_dst (c : HopCtx) {re : Row} (hre : re ∈ c.edges_indexed) :
    (match rlookup re c.d with | some v => [(c.n, v)] | none => ([] : Row))
      ∈ nodeRowUniverse c := by
  unfold nodeRowUniverse
  exact mem_dedupG.mpr (List.mem_append.mpr (Or.inr
    (List.mem_map.mpr ⟨re, hre, rfl⟩)))

/-- Renamed selected endpoints of candidate forward edges lie in the
endpoint universe. -/
theorem renamed_dst_universe (c : HopCtx) (wfi : DF)
    (hwfi : ∀ r ∈ wfi, ∀ kv ∈ r, kv.1 = c.n) (hnd : c.n ≠ c.d) :
    ∀ r ∈ renameCol c.d c.n (selDF [c.d] (hopEdgesForwardRaw c wfi)),
      r ∈ nodeRowUniverse c := by
  intro r hr
  obtain ⟨x, hx, hxr⟩ := List.mem_map.mp hr
  obtain ⟨e, he, hex⟩ := List.mem_map.mp hx
  obtain ⟨re, hre, hlook⟩ := hopEdgesForwardRaw_lookup c wfi hwfi he c.d
    (by simp) (Ne.symm hnd)
  have : r = (match rlookup re c.d with | some v => [(c.n, v)] | none => []) := by
    rw [← hxr, ← hex, selectCols_cons, ← hlook]
    cases h : rlookup e c.d with
    | none => simp [selectCols]
    | some v => simp [selectCols]
  rw [this]
  exact mem_nodeRowUniverse_dst c hre

theorem renamed_src_universe (c : HopCtx) (wfi : DF)
    (hwfi : ∀ r ∈ wfi, ∀ kv ∈ r, kv.1 = c.n) (hns : c.n ≠ c.s) :
    ∀ r ∈ renameCol c.s c.n (selDF [c.s] (hopEdgesReverseRaw c wfi)),
      r ∈ nodeRowUniverse c := by
  intro r hr
  obtain ⟨x, hx, hxr⟩ := List.mem_map.mp hr
  obtain ⟨e, he, hex⟩ := List.mem_map.mp hx
  obtain ⟨re, hre, hlook⟩ := hopEdgesReverseRaw_lookup c wfi hwfi he c.s
    (by simp) (Ne.symm hns)
  have : r = (match rlookup re c.s with | some v => [(c.n, v)] | none => []) := by
    rw [← hxr, ← hex, selectCols_cons, ← hlook]
    cases h : rlookup e c.s with
    | none => simp [selectCols]
    | some v => simp [selectCols]
  rw [this]
  exact mem_nodeRowUniverse_src c hre

/-- The destination filter only shrinks an id-shaped new-node frame. -/
theorem destFilter_subset (c : HopCtx) (ni : DF)
    (hshape : ∀ r ∈ ni, IdShaped c.n r) :
    ∀ r ∈ destFilter c ni, r ∈ ni := by
  intro r hr
  unfold destFilter at hr
  obtain ⟨x, hx, hxr⟩ := List.mem_map.mp hr
  have hx2 : x ∈ innerMerge c.base_target_nodes ni c.n :=
    mem_filter_by_dict (mem_query_if_not_none hx)
  obtain ⟨rb, _, rr, hrr, hcond, hxc⟩ := mem_innerMerge.mp hx2
  have hlook : rlookup x c.n = rlookup rb c.n := by
    rw [hxc, rlookup_combineRow]
    cases h : rlookup rb c.n with
    | some v => rfl
    | none => simp
  have hsel : r = (match rlookup rb c.n with
      | some v => [(c.n, v)] | none => ([] : Row)) := by
    rw [← hxr, selectCols_cons, hlook]
    cases h : rlookup rb c.n with
    | none => simp [selectCols]
    | some v => simp [selectCols]
  rcases hshape rr hrr with hempty | ⟨v, hv⟩
  · have : rlookup rr c.n = none := by rw [hempty]; rfl
    rw [this] at hcond
    rw [hsel, ← hcond, ← hempty]
    exact hrr
  · have : rlookup rr c.n = some v := by rw [hv]; simp [rlookup]
    rw [this] at hcond
    have : r = rr := by rw [hsel, ← hcond, hv]
    rw [this]
    exact hrr

theorem renameCol_keys (o n2 : String) (df : DF)
    (h : ∀ r ∈ df, ∀ kv ∈ r, kv.1 = o) :
    ∀ r ∈ renameCol o n2 df, ∀ kv ∈ r, kv.1 = n2 := by
  intro r hr kv hkv
  obtain ⟨x, hx, hxr⟩ := List.mem_map.mp hr
  rw [← hxr] at hkv
  obtain ⟨kv0, hkv0, hkve⟩ := List.mem_map.mp hkv
  rw [← hkve]
  simp [h x hx kv0 hkv0]

theorem destFilter_keys (c : HopCtx) (ni : DF) :
    ∀ r ∈ destFilter c ni, ∀ kv ∈ r, kv.1 = c.n := by
  intro r hr kv hkv
  unfold destFilter at hr
  obtain ⟨x, _, hxr⟩ := List.mem_map.mp hr
  rw [← hxr] at hkv
  simpa using mem_selectCols_keys hkv

/-- With a destination predicate, the re-restricted candidate edges are a
subset of the raw candidate edges. -/
theorem destRestrict_edges_subset (key : String) (he ni2 : DF)
    (hkeys : ∀ r ∈ ni2, ∀ kv ∈ r, kv.1 = key) :
    ∀ e ∈ innerMerge he ni2 key, e ∈ he := by
  intro e hme
  obtain ⟨e0, he0, rr, hrr, _, hcomb⟩ := mem_innerMerge.mp hme
  rw [hcomb, combineRow_right_degenerate (hkeys rr hrr)]
  exact he0

/-- The forward block's new node ids lie in the endpoint universe. -/
theorem forwardStep_newIds_universe (c : HopCtx) (wfi : DF)
    (hwfi : ∀ r ∈ wfi, ∀ kv ∈ r, kv.1 = c.n) (hnd : c.n ≠ c.d) :
    ∀ r ∈ (forwardStep c wfi).2, r ∈ nodeRowUniverse c := by
  intro r hr
  unfold forwardStep at hr
  by_cases hdp : hasDestPred c = true
  · rw [if_pos hdp] at hr
    dsimp only at hr
    have hsub := destFilter_subset c
      (dedupG (renameCol c.d c.n (selDF [c.d] (hopEdgesForwardRaw c wfi))))
      (fun x hx => renameSel_shaped c.d c.n _ x (mem_dedupG.mp hx)) r hr
    exact renamed_dst_universe c wfi hwfi hnd r (mem_dedupG.mp hsub)
  · rw [if_neg hdp] at hr
    dsimp only at hr
    exact renamed_dst_universe c wfi hwfi hnd r (mem_dedupG.mp hr)

/-- The reverse block's new node ids lie in the endpoint universe. -/
theorem reverseStep_newIds_universe (c : HopCtx) (wfi : DF)
    (hwfi : ∀ r ∈ wfi, ∀ kv ∈ r, kv.1 = c.n) (hns : c.n ≠ c.s) :
    ∀ r ∈ (reverseStep c wfi).2, r ∈ nodeRowUniverse c := by
  intro r hr
  unfold reverseStep at hr
  by_cases hdp : hasDestPred c = true
  · rw [if_pos hdp] at hr
    dsimp only at hr
    have hsub := destFilter_subset c
      (dedupG (renameCol c.s c.n (selDF [c.s] (hopEdgesReverseRaw c wfi))))
      (fun x hx => renameSel_shaped c.s c.n _ x (mem_dedupG.mp hx)) r hr
    exact renamed_src_universe c wfi hwfi hns r (mem_dedupG.mp hsub)
  · rw [if_neg hdp] at hr
    dsimp only at hr
    exact renamed_src_universe c wfi hwfi hns r (mem_dedupG.mp hr)

/-- The forward block's matched edges are among the raw candidates. -/
theorem forwardStep_edges_subset (c : HopCtx) (wfi : DF) :
    ∀ e ∈ (forwardStep c wfi).1, e ∈ hopEdgesForwardRaw c wfi := by
  intro e he
  unfold forwardStep at he
  by_cases hdp : hasDestPred c = true
  · rw [if_pos hdp] at he
    dsimp only at he
    refine destRestrict_edges_subset c.d _ _ ?_ e he
    exact renameCol_keys c.n c.d _ (destFilter_keys c _)
  · rw [if_neg hdp] at he
    exact he

/-- The reverse block's matched edges are among the raw candidates. -/
theorem reverseStep_edges_subset (c : HopCtx) (wfi : DF) :
    ∀ e ∈ (reverseStep c wfi).1, e ∈ hopEdgesReverseRaw c wfi := by
  intro e he
  unfold reverseStep at he
  by_cases hdp : hasDestPred c = true
  · rw [if_pos hdp] at he
    dsimp only at he
    refine destRestrict_edges_subset c.s _ _ ?_ e he
    exact renameCol_keys c.n c.s _ (destFilter_keys c _)
  · rw [if_neg hdp] at he
    exact he

/-- All new node ids of one iteration lie in the endpoint universe. -/
theorem stepNewIds_universe (c : HopCtx) (st : LoopState)
    (hns : c.n ≠ c.s) (hnd : c.n ≠ c.d) :
    ∀ r ∈ stepNewIds c st, r ∈ nodeRowUniverse c := by
  intro r hr
  unfold stepNewIds at hr
  rcases List.mem_append.mp (mem_dedupG.mp hr) with h | h
  · unfold stepFwd at h
    by_cases hdF : c.dirF = true
    · rw [if_pos hdF] at h
      exact forwardStep_newIds_universe c _ (waveFrontIter_keys c st) hnd r h
    · rw [if_neg hdF] at h
      exact absurd h (List.not_mem_nil r)
  · unfold stepRev at h
    by_cases hdR : c.dirR = true
    · rw [if_pos hdR] at h
      exact reverseStep_newIds_universe c _ (waveFrontIter_keys c st) hns r h
    · rw [if_neg hdR] at h
      exact absurd h (List.not_mem_nil r)

/-- The first-iteration seed lies in the endpoint universe. -/
theorem seedNodes_universe (c : HopCtx) (st : LoopState)
    (hns : c.n ≠ c.s) (hnd : c.n ≠ c.d) :
    ∀ r ∈ seedNodes c (stepFwd c st) (stepRev c st), r ∈ nodeRowUniverse c := by
  intro r hr
  unfold seedNodes at hr
  rcases List.mem_append.mp (mem_dedupBy hr) with h | h
  · unfold stepFwd at h
    by_cases hdF : c.dirF = true
    · rw [if_pos hdF] at h
      unfold optSeedF at h
      have h2 := mem_dedupG.mp h
      obtain ⟨x, hx, hxr⟩ := List.mem_map.mp h2
      obtain ⟨e, he, hex⟩ := List.mem_map.mp hx
      have he2 := forwardStep_edges_subset c (waveFrontIter c st) e he
      obtain ⟨re, hre, hlook⟩ := hopEdgesForwardRaw_lookup c _
        (waveFrontIter_keys c st) he2 c.s (by simp) (Ne.symm hns)
      have : r = (match rlookup re c.s with
          | some v => [(c.n, v)] | none => ([] : Row)) := by
        rw [← hxr, ← hex, selectCols_cons, ← hlook]
        cases hv : rlookup e c.s with
        | none => simp [selectCols]
        | some v => simp [selectCols]
      rw [this]
      exact mem_nodeRowUniverse_src c hre
    · rw [if_neg hdF] at h
      exact absurd h (List.not_mem_nil r)
  · unfold stepRev at h
    by_cases hdR : c.dirR = true
    · rw [if_pos hdR] at h
      unfold optSeedR at h
      have h2 := mem_dedupG.mp h
      obtain ⟨x, hx, hxr⟩ := List.mem_map.mp h2
      obtain ⟨e, he, hex⟩ := List.mem_map.mp hx
      have he2 := reverseStep_edges_subset c (waveFrontIter c st) e he
      obtain ⟨re, hre, hlook⟩ := hopEdgesReverseRaw_lookup c _
        (waveFrontIter_keys c st) he2 c.d (by simp) (Ne.symm hnd)
      have : r = (match rlookup re c.d with
          | some v => [(c.n, v)] | none => ([] : Row)) := by
        rw [← hxr, ← hex, selectCols_cons, ← hlook]
        cases hv : rlookup e c.d with
        | none => simp [selectCols]
        | some v => simp [selectCols]
      rw [this]
      exact mem_nodeRowUniverse_dst c hre
    · rw [if_neg hdR] at h
      exact absurd h (List.not_mem_nil r)

/-- The termination invariant: the accumulated result node set is
duplicate-free and contained in the endpoint universe. -/
def MatchesInv (c : HopCtx) (st : LoopState) : Prop :=
  st.matches_nodes = none
  ∨ ∃ m, st.matches_nodes = some m ∧ m.Nodup ∧ ∀ r ∈ m, r ∈ nodeRowUniverse c

/-- The size of the accumulated result node set. -/
def matchesLen (st : LoopState) : Nat :=
  match st.matches_nodes with
  | some m => m.length
  | none => 0

theorem dedupG_append_length_ge {α : Type} [DecidableEq α] {m : List α}
    (n : List α) (hm : m.Nodup) : m.length ≤ (dedupG (m ++ n)).length := by
  have hsub : m ⊆ dedupG (m ++ n) := fun x hx =>
    mem_dedupG.mpr (List.mem_append.mpr (Or.inl hx))
  exact (List.subperm_of_subset hm hsub).length_le

theorem stepMatchesCur_inv (c : HopCtx) (st : LoopState)
    (hns : c.n ≠ c.s) (hnd : c.n ≠ c.d) (hinv : MatchesInv c st) :
    (stepMatchesCur c st).Nodup
      ∧ ∀ r ∈ stepMatchesCur c st, r ∈ nodeRowUniverse c := by
  unfold stepMatchesCur
  cases hmn : st.matches_nodes with
  | some m =>
    rcases hinv with hnone | ⟨m2, hm2, hnd2, hsub⟩
    · rw [hmn] at hnone; exact absurd hnone (by simp)
    · rw [hmn] at hm2
      have hem : m = m2 := Option.some_inj.mp hm2
      subst hem
      exact ⟨hnd2, hsub⟩
  | none =>
    by_cases hrawf : c.return_as_wave_front = true
    · simp only [hrawf, if_pos]
      exact ⟨List.nodup_nil, fun r hr => absurd hr (List.not_mem_nil r)⟩
    · rw [if_neg hrawf]
      exact ⟨nodup_dedupBy _ _, seedNodes_universe c st hns hnd⟩

theorem stepCombined_inv (c : HopCtx) (st : LoopState)
    (hns : c.n ≠ c.s) (hnd : c.n ≠ c.d) (hinv : MatchesInv c st) :
    (stepCombined c st).Nodup
      ∧ ∀ r ∈ stepCombined c st, r ∈ nodeRowUniverse c := by
  unfold stepCombined
  refine ⟨nodup_dedupG _, ?_⟩
  intro r hr
  rcases List.mem_append.mp (mem_dedupG.mp hr) with h | h
  · exact (stepMatchesCur_inv c st hns hnd hinv).2 r h
  · exact stepNewIds_universe c st hns hnd r h

/-- One step preserves the invariant, and a continuing step strictly
grows the result set. -/
theorem hopStep_inv_growth (c : HopCtx) (st : LoopState)
    (hns : c.n ≠ c.s) (hnd : c.n ≠ c.d) (hinv : MatchesInv c st) :
    (∀ st2, hopStep c st = Sum.inl st2 →
      MatchesInv c st2 ∧ matchesLen st + 1 ≤ matchesLen st2)
    ∧ (∀ st2, hopStep c st = Sum.inr st2 → MatchesInv c st2) := by
  have hcore : ∀ hops2,
      (∀ st2, stepCore c st hops2 = Sum.inl st2 →
        MatchesInv c st2 ∧ matchesLen st + 1 ≤ matchesLen st2)
      ∧ (∀ st2, stepCore c st hops2 = Sum.inr st2 → MatchesInv c st2) := by
    intro hops2
    constructor
    · intro st2 h
      unfold stepCore at h
      by_cases hfix : (stepCombined c st).length = (stepMatchesCur c st).length
      · rw [if_pos hfix] at h; exact absurd h (by simp)
      · rw [if_neg hfix] at h
        have h2 := Sum.inl.inj h
        obtain ⟨hndc, hsubc⟩ := stepCombined_inv c st hns hnd hinv
        constructor
        · right
          exact ⟨stepCombined c st, by rw [← h2], hndc, hsubc⟩
        · have hge : (stepMatchesCur c st).length ≤ (stepCombined c st).length := by
            unfold stepCombined
            exact dedupG_append_length_ge _ (stepMatchesCur_inv c st hns hnd hinv).1
          have hlt : (stepMatchesCur c st).length < (stepCombined c st).length :=
            lt_of_le_of_ne hge (fun hh => hfix hh.symm)
          have hlen2 : matchesLen st2 = (stepCombined c st).length := by
            rw [← h2]; rfl
          have hlen1 : matchesLen st ≤ (stepMatchesCur c st).length := by
            unfold matchesLen stepMatchesCur
            cases hmn : st.matches_nodes with
            | some m => exact le_refl _
            | none => exact Nat.zero_le _
          rw [hlen2]
          exact Nat.succ_le_of_lt (lt_of_le_of_lt hlen1 hlt)
    · intro st2 h
      unfold stepCore at h
      by_cases hfix : (stepCombined c st).length = (stepMatchesCur c st).length
      · rw [if_pos hfix] at h
        have h2 := Sum.inr.inj h
        obtain ⟨hndc, hsubc⟩ := stepMatchesCur_inv c st hns hnd hinv
        right
        exact ⟨stepMatchesCur c st, by rw [← h2], hndc, hsubc⟩
      · rw [if_neg hfix] at h; exact absurd h (by simp)
  constructor
  · intro st2 h
    unfold hopStep at h
    rcases htf : c.to_fixed_point with _ | _
    · rw [htf] at h
      rcases hh : st.hops_remaining with _ | h0
      · rw [hh] at h; dsimp only at h
        exact (hcore _).1 st2 h
      · rw [hh] at h; dsimp only at h
        by_cases hlt : h0 < 1
        · rw [if_pos hlt] at h; exact absurd h (by simp)
        · rw [if_neg hlt] at h
          exact (hcore _).1 st2 h
    · rw [htf] at h; dsimp only at h
      exact (hcore _).1 st2 h
  · intro st2 h
    unfold hopStep at h
    rcases htf : c.to_fixed_point with _ | _
    · rw [htf] at h
      rcases hh : st.hops_remaining with _ | h0
      · rw [hh] at h; dsimp only at h
        exact (hcore _).2 st2 h
      · rw [hh] at h; dsimp only at h
        by_cases hlt : h0 < 1
        · rw [if_pos hlt] at h
          rw [← Sum.inr.inj h]
          exact hinv
        · rw [if_neg hlt] at h
          exact (hcore _).2 st2 h
    · rw [htf] at h; dsimp only at h
      exact (hcore _).2 st2 h

theorem matchesLen_le_universe (c : HopCtx) (st : LoopState)
    (hinv : MatchesInv c st) :
    matchesLen st ≤ (nodeRowUniverse c).length := by
  unfold matchesLen
  rcases hinv with hnone | ⟨m, hm, hnd2, hsub⟩
  · rw [hnone]; exact Nat.zero_le _
  · rw [hm]
    exact (List.subperm_of_subset hnd2 hsub).length_le

/-- Sufficient fuel makes the loop halt: each continuing iteration grows
the duplicate-free result set, which is bounded by the endpoint universe. -/
theorem hopLoop_total (c : HopCtx) (hns : c.n ≠ c.s) (hnd : c.n ≠ c.d) :
    ∀ (fuel : Nat) (st : LoopState), MatchesInv c st →
      (nodeRowUniverse c).length + 2 ≤ matchesLen st + fuel →
      ∃ stF, hopLoop c fuel st = some stF := by
  intro fuel
  induction fuel with
  | zero =>
    intro st hinv hge
    have h1 := matchesLen_le_universe c st hinv
    omega
  | succ fuel ih =>
    intro st hinv hge
    unfold hopLoop
    cases hs : hopStep c st with
    | inr st2 => exact ⟨st2, rfl⟩
    | inl st2 =>
      obtain ⟨hinv2, hgrow⟩ := (hopStep_inv_growth c st hns hnd hinv).1 st2 hs
      exact ih st2 hinv2 (by omega)

/-- The loop-level fixed-point facts: termination within the fuel `hop`
allots, monotonic non-decreasing growth, boundedness by the endpoint
universe, and the exact exit condition. -/
theorem fixedPointLoopFacts
    (c : HopCtx) (hops : Option Int)
    (htfp : c.to_fixed_point = true) (hns : c.n ≠ c.s) (hnd : c.n ≠ c.d) :
    (∃ stF, hopLoop c (hopFuel c hops) (initState hops) = some stF)
    ∧ (∀ st st2 m, st.matches_nodes = some m →
        (hopStep c st = Sum.inl st2 ∨ hopStep c st = Sum.inr st2) →
        ∃ m2, st2.matches_nodes = some m2 ∧ ∀ r ∈ m, r ∈ m2)
    ∧ (∀ st, MatchesInv c st → matchesLen st ≤ (nodeRowUniverse c).length)
    ∧ (∀ st hops2,
        ((stepCombined c st).length = (stepMatchesCur c st).length →
          stepCore c st hops2 = Sum.inr
            { hops_remaining := hops2, wave_front := st.wave_front,
              matches_nodes := some (stepMatchesCur c st),
              matches_edges := stepMatchesEdges c st, first_iter := false })
        ∧ (¬ (stepCombined c st).length = (stepMatchesCur c st).length →
          stepCore c st hops2 = Sum.inl
            { hops_remaining := hops2, wave_front := stepNewIds c st,
              matches_nodes := some (stepCombined c st),
              matches_edges := stepMatchesEdges c st, first_iter := false })) := by
  refine ⟨?_, ?_, ?_, ?_⟩
  · have hfuel : hopFuel c hops = (nodeRowUniverse c).length + 2 := by
      unfold hopFuel
      rw [htfp]
      simp
    rw [hfuel]
    refine hopLoop_total c hns hnd _ (initState hops) (Or.inl rfl) ?_
    have : matchesLen (initState hops) = 0 := rfl
    omega
  · intro st st2 m hm h
    exact hopStep_matches_mono c st st2 m hm h
  · intro st hinv
    exact matchesLen_le_universe c st hinv
  · intro st hops2
    constructor
    · intro hfix
      unfold stepCore
      rw [if_pos hfix]
    · intro hfix
      unfold stepCore
      rw [if_neg hfix]

/-- C4.  For every finite graph under a valid configuration with distinct
node and endpoint column bindings, `hop` with `to_fixed_point = true`
terminates (it returns a result, never exhausting its fuel); and for
every such loop context, the accumulated result node set never loses a
row across an iteration, is duplicate-free and bounded by the size of the
endpoint universe (the graph's total node count, implicit endpoint nodes
included), and the loop exits exactly when `|result ∪ new| = |result|`,
returning — without advancing the wavefront (`wave_front` is kept) — the
pre-union result set.  (`hop.py` lines 195-202.) -/
theorem fixed_point_terminates
    (self : Plottable) (nodes : Option DF) (hops : Option Int)
    (direction : String) (em snm dnm : Option (List (String × Val)))
    (snq dnq eq2 : Option (Row → Bool)) (rawf : Bool) (twf : Option DF)
    (ei : DF) (eidc n sc dc : String)
    (hdir : direction = "forward" ∨ direction = "reverse" ∨ direction = "undirected")
    (hie : indexEdges self.materialize_nodes em eq2 = Except.ok (ei, eidc))
    (hn : (self.materialize_nodes)._node = some n)
    (hs : (self.materialize_nodes)._source = some sc)
    (hd : (self.materialize_nodes)._destination = some dc)
    (hnsc : n ≠ sc) (hndc : n ≠ dc) :
    (∃ gOut, hop self nodes hops true direction em snm dnm snq dnq eq2 rawf twf
      = Except.ok gOut)
    ∧ (∀ (c : HopCtx) (hops0 : Option Int),
        c.to_fixed_point = true → c.n ≠ c.s → c.n ≠ c.d →
        (∃ stF, hopLoop c (hopFuel c hops0) (initState hops0) = some stF)
        ∧ (∀ st st2 m, st.matches_nodes = some m →
            (hopStep c st = Sum.inl st2 ∨ hopStep c st = Sum.inr st2) →
            ∃ m2, st2.matches_nodes = some m2 ∧ ∀ r ∈ m, r ∈ m2)
        ∧ (∀ st, MatchesInv c st → matchesLen st ≤ (nodeRowUniverse c).length)
        ∧ (∀ st hops2,
            ((stepCombined c st).length = (stepMatchesCur c st).length →
              stepCore c st hops2 = Sum.inr
                { hops_remaining := hops2, wave_front := st.wave_front,
                  matches_nodes := some (stepMatchesCur c st),
                  matches_edges := stepMatchesEdges c st, first_iter := false })
            ∧ (¬ (stepCombined c st).length = (stepMatchesCur c st).length →
              stepCore c st hops2 = Sum.inl
                { hops_remaining := hops2, wave_front := stepNewIds c st,
                  matches_nodes := some (stepCombined c st),
                  matches_edges := stepMatchesEdges c st,
                  first_iter := false }))) := by
  constructor
  · rw [hop_eq_hopRun self nodes hops true direction em snm dnm snq dnq eq2
      rawf twf ei eidc n sc dc (by simp) hdir hie hn hs hd]
    unfold hopRun
    obtain ⟨stF, hstF⟩ :=
      (fixedPointLoopFacts
        (mkCtx self.materialize_nodes ei eidc
          (nodesOrDefault nodes self.materialize_nodes)
          n sc dc true direction snm (if dnm = some [] then none else dnm)
          snq dnq rawf twf)
        hops rfl hnsc hndc).1
    rw [hstF]
    exact ⟨_, rfl⟩
  · intro c hops0 htfp hns hnd
    exact fixedPointLoopFacts c hops0 htfp hns hnd

/-- The C4 witness graph: a single edge `0 → 1`. -/
def fixGraph : Plottable :=
  { _nodes := some [[("id", 0)], [("id", 1)]]
    _edges := [[("s", 0), ("d", 1)]]
    _node := some "id", _source := some "s",
    _destination := some "d", _edge := none }

/-- C4 witness: termination on a concrete one-edge graph, plus the loop
facts at the concrete fixed-point context. -/
theorem fixed_point_terminates_witness :
    (∃ gOut, hop fixGraph
        (some [[("id", 0)]]) none true "forward"
        none none none none none none false none = Except.ok gOut)
    ∧ (∀ (c : HopCtx) (hops0 : Option Int),
        c.to_fixed_point = true → c.n ≠ c.s → c.n ≠ c.d →
        (∃ stF, hopLoop c (hopFuel c hops0) (initState hops0) = some stF)
        ∧ (∀ st st2 m, st.matches_nodes = some m →
            (hopStep c st = Sum.inl st2 ∨ hopStep c st = Sum.inr st2) →
            ∃ m2, st2.matches_nodes = some m2 ∧ ∀ r ∈ m, r ∈ m2)
        ∧ (∀ st, MatchesInv c st → matchesLen st ≤ (nodeRowUniverse c).length)
        ∧ (∀ st hops2,
            ((stepCombined c st).length = (stepMatchesCur c st).length →
              stepCore c st hops2 = Sum.inr
                { hops_remaining := hops2, wave_front := st.wave_front,
                  matches_nodes := some (stepMatchesCur c st),
                  matches_edges := stepMatchesEdges c st, first_iter := false })
            ∧ (¬ (stepCombined c st).length = (stepMatchesCur c st).length →
              stepCore c st hops2 = Sum.inl
                { hops_remaining := hops2, wave_front := stepNewIds c st,
                  matches_nodes := some (stepCombined c st),
                  matches_edges := stepMatchesEdges c st,
                  first_iter := false }))) :=
  fixed_point_terminates fixGraph
    (some [[("id", 0)]]) none "forward" none none none none none none false none
    (reset_index [[("s", (0 : Int)), ("d", 1)]]) "index" "id" "s" "d"
    (Or.inl rfl) (by decide) rfl rfl rfl (by decide) (by decide)


/-! ### C1: undirected versus forward / reverse union -/

theorem stepMatchesCur_init_nodup (c : HopCtx) (hops : Option Int) :
    (stepMatchesCur c (initState hops)).Nodup := by
  by_cases hrawf : c.return_as_wave_front = true
  · rw [stepMatchesCur_init_rawf c hops hrawf]
    exact List.nodup_nil
  · rw [stepMatchesCur_init_seeds c hops (by simpa using hrawf)]
    exact nodup_dedupBy _ _

/-- With a budget of exactly one hop, the loop performs one iteration and
its final result node set is, as a set, the first iteration's
`matchesCur ∪ new_node_ids`. -/
theorem hops1_final (c : HopCtx) (htfp : c.to_fixed_point = false) :
    ∃ st1 m1, hopLoop c 2 (initState (some 1)) = some st1
      ∧ st1.matches_nodes = some m1
      ∧ ∀ r, r ∈ m1 ↔ (r ∈ stepMatchesCur c (initState (some 1))
          ∨ r ∈ stepNewIds c (initState (some 1))) := by
  have hse : hopStep c (initState (some 1))
      = stepCore c (initState (some 1)) (some 0) := by
    unfold hopStep
    rw [htfp, show (initState (some 1)).hops_remaining = some (1 : Int) from rfl]
    dsimp only
    rw [if_neg (by norm_num)]
    norm_num
  by_cases hfix : (stepCombined c (initState (some 1))).length
      = (stepMatchesCur c (initState (some 1))).length
  · have hsc : stepCore c (initState (some 1)) (some 0)
        = Sum.inr
          { hops_remaining := some 0,
            wave_front := (initState (some 1)).wave_front,
            matches_nodes := some (stepMatchesCur c (initState (some 1))),
            matches_edges := stepMatchesEdges c (initState (some 1)),
            first_iter := false } := by
      unfold stepCore
      rw [if_pos hfix]
    refine ⟨{ hops_remaining := some 0,
              wave_front := (initState (some 1)).wave_front,
              matches_nodes := some (stepMatchesCur c (initState (some 1))),
              matches_edges := stepMatchesEdges c (initState (some 1)),
              first_iter := false },
        stepMatchesCur c (initState (some 1)), ?_, rfl, ?_⟩
    · unfold hopLoop
      rw [hse, hsc]
    · intro r
      constructor
      · exact fun h => Or.inl h
      · rintro (h | h)
        · exact h
        · exact dedupG_length_eq_imp_subset (stepMatchesCur_init_nodup c (some 1))
            hfix r h
  · have hsc : stepCore c (initState (some 1)) (some 0)
        = Sum.inl
          { hops_remaining := some 0,
            wave_front := stepNewIds c (initState (some 1)),
            matches_nodes := some (stepCombined c (initState (some 1))),
            matches_edges := stepMatchesEdges c (initState (some 1)),
            first_iter := false } := by
      unfold stepCore
      rw [if_neg hfix]
    refine ⟨{ hops_remaining := some 0,
              wave_front := stepNewIds c (initState (some 1)),
              matches_nodes := some (stepCombined c (initState (some 1))),
              matches_edges := stepMatchesEdges c (initState (some 1)),
              first_iter := false },
        stepCombined c (initState (some 1)), ?_, rfl, ?_⟩
    · show hopLoop c 2 (initState (some 1)) = _
      unfold hopLoop
      rw [hse, hsc]
      exact hopLoop_budget_exhausted c _ 0 0 htfp rfl (by norm_num)
    · intro r
      unfold stepCombined
      constructor
      · intro h
        exact List.mem_append.mp (mem_dedupG.mp h)
      · intro h
        exact mem_dedupG.mpr (List.mem_append.mpr h)

theorem mem_dedupG_append {α : Type} [DecidableEq α] {a b : List α} {x : α} :
    x ∈ dedupG (a ++ b) ↔ x ∈ a ∨ x ∈ b := by
  rw [mem_dedupG, List.mem_append]

theorem mem_seedNodes_iff (c : HopCtx) (fwd? rev? : Option (DF × DF)) (r : Row) :
    r ∈ seedNodes c fwd? rev? ↔ (r ∈ optSeedF c fwd? ∨ r ∈ optSeedR c rev?) := by
  constructor
  · intro h
    exact List.mem_append.mp (mem_dedupBy h)
  · intro h
    unfold seedNodes
    refine mem_dedupBy_of_det ?_ (List.mem_append.mpr h)
    intro x hx y hy hf
    have hxs : IdShaped c.n x := by
      rcases List.mem_append.mp hx with h2 | h2
      · exact optSeedF_shaped c fwd? x h2
      · exact optSeedR_shaped c rev? x h2
    have hys : IdShaped c.n y := by
      rcases List.mem_append.mp hy with h2 | h2
      · exact optSeedF_shaped c fwd? y h2
      · exact optSeedR_shaped c rev? y h2
    exact idShaped_key_det hxs hys hf

/-- With a budget of one hop, the final result node set of the undirected
run is, as a set, the union of the forward-only and reverse-only runs on
the same context. -/
theorem hops1_direction_union (c0 : HopCtx) (htfp : c0.to_fixed_point = false) :
    ∃ stU mU stF mF stR mR,
      hopLoop { c0 with dirF := true, dirR := true } 2 (initState (some 1))
          = some stU
      ∧ stU.matches_nodes = some mU
      ∧ hopLoop { c0 with dirF := true, dirR := false } 2 (initState (some 1))
          = some stF
      ∧ stF.matches_nodes = some mF
      ∧ hopLoop { c0 with dirF := false, dirR := true } 2 (initState (some 1))
          = some stR
      ∧ stR.matches_nodes = some mR
      ∧ ∀ r, r ∈ mU ↔ (r ∈ mF ∨ r ∈ mR) := by
  obtain ⟨stU, mU, hlU, hmU, hiU⟩ :=
    hops1_final { c0 with dirF := true, dirR := true } htfp
  obtain ⟨stF, mF, hlF, hmF, hiF⟩ :=
    hops1_final { c0 with dirF := true, dirR := false } htfp
  obtain ⟨stR, mR, hlR, hmR, hiR⟩ :=
    hops1_final { c0 with dirF := false, dirR := true } htfp
  refine ⟨stU, mU, stF, mF, stR, mR, hlU, hmU, hlF, hmF, hlR, hmR, ?_⟩
  intro r
  rw [hiU r, hiF r, hiR r]
  have hNU : r ∈ stepNewIds { c0 with dirF := true, dirR := true }
      (initState (some 1))
      ↔ (r ∈ (forwardStep c0 (waveFrontIter c0 (initState (some 1)))).2
        ∨ r ∈ (reverseStep c0 (waveFrontIter c0 (initState (some 1)))).2) := by
    unfold stepNewIds
    exact mem_dedupG_append
  have hNF : r ∈ stepNewIds { c0 with dirF := true, dirR := false }
      (initState (some 1))
      ↔ r ∈ (forwardStep c0 (waveFrontIter c0 (initState (some 1)))).2 := by
    unfold stepNewIds
    rw [show optNewIds (stepRev { c0 with dirF := true, dirR := false }
        (initState (some 1))) = ([] : DF) from rfl, List.append_nil]
    exact mem_dedupG
  have hNR : r ∈ stepNewIds { c0 with dirF := false, dirR := true }
      (initState (some 1))
      ↔ r ∈ (reverseStep c0 (waveFrontIter c0 (initState (some 1)))).2 := by
    unfold stepNewIds
    rw [show optNewIds (stepFwd { c0 with dirF := false, dirR := true }
        (initState (some 1))) = ([] : DF) from rfl, List.nil_append]
    exact mem_dedupG
  by_cases hrawf : c0.return_as_wave_front = true
  · have hCU : stepMatchesCur { c0 with dirF := true, dirR := true }
        (initState (some 1)) = [] := stepMatchesCur_init_rawf _ _ hrawf
    have hCF : stepMatchesCur { c0 with dirF := true, dirR := false }
        (initState (some 1)) = [] := stepMatchesCur_init_rawf _ _ hrawf
    have hCR : stepMatchesCur { c0 with dirF := false, dirR := true }
        (initState (some 1)) = [] := stepMatchesCur_init_rawf _ _ hrawf
    rw [hCU, hCF, hCR, hNU, hNF, hNR]
    simp only [List.not_mem_nil, false_or]
  · have hrawf2 : c0.return_as_wave_front = false := by simpa using hrawf
    have hCU : ∀ x, x ∈ stepMatchesCur { c0 with dirF := true, dirR := true }
        (initState (some 1))
        ↔ (x ∈ optSeedF c0 (some (forwardStep c0 (waveFrontIter c0 (initState (some 1)))))
          ∨ x ∈ optSeedR c0 (some (reverseStep c0 (waveFrontIter c0 (initState (some 1)))))) := by
      intro x
      rw [stepMatchesCur_init_seeds
        { c0 with dirF := true, dirR := true } (some 1) hrawf2]
      exact mem_seedNodes_iff _ _ _ x
    have hCF : ∀ x, x ∈ stepMatchesCur { c0 with dirF := true, dirR := false }
        (initState (some 1))
        ↔ x ∈ optSeedF c0 (some (forwardStep c0 (waveFrontIter c0 (initState (some 1))))) := by
      intro x
      rw [stepMatchesCur_init_seeds
        { c0 with dirF := true, dirR := false } (some 1) hrawf2]
      rw [mem_seedNodes_iff _ _ _ x]
      rw [show optSeedR { c0 with dirF := true, dirR := false }
          (stepRev { c0 with dirF := true, dirR := false } (initState (some 1)))
          = ([] : DF) from rfl]
      simp only [List.not_mem_nil, or_false]
      exact Iff.rfl
    have hCR : ∀ x, x ∈ stepMatchesCur { c0 with dirF := false, dirR := true }
        (initState (some 1))
        ↔ x ∈ optSeedR c0 (some (reverseStep c0 (waveFrontIter c0 (initState (some 1))))) := by
      intro x
      rw [stepMatchesCur_init_seeds
        { c0 with dirF := false, dirR := true } (some 1) hrawf2]
      rw [mem_seedNodes_iff _ _ _ x]
      rw [show optSeedF { c0 with dirF := false, dirR := true }
          (stepFwd { c0 with dirF := false, dirR := true } (initState (some 1)))
          = ([] : DF) from rfl]
      simp only [List.not_mem_nil, false_or]
      exact Iff.rfl
    rw [hCU r, hCF r, hCR r, hNU, hNF, hNR]
    tauto

theorem innerMerge_union {rich m1 m2 m3 : DF} {k : String}
    (hiff : ∀ x, x ∈ m1 ↔ (x ∈ m2 ∨ x ∈ m3)) :
    ∀ r, r ∈ innerMerge rich m1 k
      ↔ (r ∈ innerMerge rich m2 k ∨ r ∈ innerMerge rich m3 k) := by
  intro r
  constructor
  · intro h
    obtain ⟨rb, hrb, rr, hrr, hcond, heq⟩ := mem_innerMerge.mp h
    rcases (hiff rr).mp hrr with h2 | h2
    · exact Or.inl (mem_innerMerge.mpr ⟨rb, hrb, rr, h2, hcond, heq⟩)
    · exact Or.inr (mem_innerMerge.mpr ⟨rb, hrb, rr, h2, hcond, heq⟩)
  · intro h
    rcases h with h | h
    · obtain ⟨rb, hrb, rr, hrr, hcond, heq⟩ := mem_innerMerge.mp h
      exact mem_innerMerge.mpr ⟨rb, hrb, rr, (hiff rr).mpr (Or.inl hrr), hcond, heq⟩
    · obtain ⟨rb, hrb, rr, hrr, hcond, heq⟩ := mem_innerMerge.mp h
      exact mem_innerMerge.mpr ⟨rb, hrb, rr, (hiff rr).mpr (Or.inr hrr), hcond, heq⟩

theorem hopFuel_one (c : HopCtx) (hc : c.to_fixed_point = false) :
    hopFuel c (some 1) = 2 := by
  unfold hopFuel
  rw [hc]
  simp

theorem mkCtx_undirected_eq (g2 : Plottable) (ei : DF) (eidc : String)
    (ndf : DF) (n sc dc : String) (tfp : Bool)
    (snm dnm : Option (List (String × Val))) (snq dnq : Option (Row → Bool))
    (rawf : Bool) (twf : Option DF) :
    mkCtx g2 ei eidc ndf n sc dc tfp "undirected" snm dnm snq dnq rawf twf
      = { mkCtx g2 ei eidc ndf n sc dc tfp "forward" snm dnm snq dnq rawf twf
          with dirF := true, dirR := true } := by
  unfold mkCtx
  congr 1 <;> decide

theorem mkCtx_forward_eq (g2 : Plottable) (ei : DF) (eidc : String)
    (ndf : DF) (n sc dc : String) (tfp : Bool)
    (snm dnm : Option (List (String × Val))) (snq dnq : Option (Row → Bool))
    (rawf : Bool) (twf : Option DF) :
    mkCtx g2 ei eidc ndf n sc dc tfp "forward" snm dnm snq dnq rawf twf
      = { mkCtx g2 ei eidc ndf n sc dc tfp "forward" snm dnm snq dnq rawf twf
          with dirF := true, dirR := false } := by
  unfold mkCtx
  congr 1 <;> decide

theorem mkCtx_reverse_eq (g2 : Plottable) (ei : DF) (eidc : String)
    (ndf : DF) (n sc dc : String) (tfp : Bool)
    (snm dnm : Option (List (String × Val))) (snq dnq : Option (Row → Bool))
    (rawf : Bool) (twf : Option DF) :
    mkCtx g2 ei eidc ndf n sc dc tfp "reverse" snm dnm snq dnq rawf twf
      = { mkCtx g2 ei eidc ndf n sc dc tfp "forward" snm dnm snq dnq rawf twf
          with dirF := false, dirR := true } := by
  unfold mkCtx
  congr 1 <;> decide

/-- C1 (amended).  For a single hop (`hops = 1`, `to_fixed_point =
false`), the result node relation of `hop` with `direction =
'undirected'` is, as a row set, the union of the result node relations of
the `'forward'`-only and `'reverse'`-only runs on the same inputs.  (For
two or more hops, or to a fixed point, this fails:
`undirected_not_direction_union_cex`.) -/
theorem undirected_union_single_hop
    (self : Plottable) (nodes : Option DF)
    (em snm dnm : Option (List (String × Val)))
    (snq dnq eq2 : Option (Row → Bool)) (rawf : Bool) (twf : Option DF)
    (ei : DF) (eidc n sc dc : String) (gU gF gR : Plottable)
    (hie : indexEdges self.materialize_nodes em eq2 = Except.ok (ei, eidc))
    (hn : (self.materialize_nodes)._node = some n)
    (hs : (self.materialize_nodes)._source = some sc)
    (hd : (self.materialize_nodes)._destination = some dc)
    (hU : hop self nodes (some 1) false "undirected" em snm dnm snq dnq eq2
      rawf twf = Except.ok gU)
    (hF : hop self nodes (some 1) false "forward" em snm dnm snq dnq eq2
      rawf twf = Except.ok gF)
    (hR : hop self nodes (some 1) false "reverse" em snm dnm snq dnq eq2
      rawf twf = Except.ok gR) :
    ∀ ns, self._nodes = some ns →
      ∀ r, r ∈ gU._nodes.getD []
        ↔ (r ∈ gF._nodes.getD [] ∨ r ∈ gR._nodes.getD []) := by
  intro ns hns r
  rw [hop_eq_hopRun self nodes (some 1) false "undirected" em snm dnm snq dnq
    eq2 rawf twf ei eidc n sc dc (by simp) (Or.inr (Or.inr rfl)) hie hn hs hd]
    at hU
  rw [hop_eq_hopRun self nodes (some 1) false "forward" em snm dnm snq dnq
    eq2 rawf twf ei eidc n sc dc (by simp) (Or.inl rfl) hie hn hs hd] at hF
  rw [hop_eq_hopRun self nodes (some 1) false "reverse" em snm dnm snq dnq
    eq2 rawf twf ei eidc n sc dc (by simp) (Or.inr (Or.inl rfl)) hie hn hs hd]
    at hR
  obtain ⟨stU, hloopU, hgU⟩ := hopRun_ok_inv hU
  obtain ⟨stF, hloopF, hgF⟩ := hopRun_ok_inv hF
  obtain ⟨stR, hloopR, hgR⟩ := hopRun_ok_inv hR
  rw [hopFuel_one _ rfl, mkCtx_undirected_eq] at hloopU
  rw [hopFuel_one _ rfl, mkCtx_forward_eq] at hloopF
  rw [hopFuel_one _ rfl, mkCtx_reverse_eq] at hloopR
  obtain ⟨stU2, mU, stF2, mF, stR2, mR, hlU2, hmU2, hlF2, hmF2, hlR2, hmR2, hiff⟩ :=
    hops1_direction_union
      (mkCtx self.materialize_nodes ei eidc
        (nodesOrDefault nodes self.materialize_nodes)
        n sc dc false "forward" snm (if dnm = some [] then none else dnm)
        snq dnq rawf twf)
      rfl
  have hUU : stU = stU2 := Option.some_inj.mp (hloopU.symm.trans hlU2)
  have hFF : stF = stF2 := Option.some_inj.mp (hloopF.symm.trans hlF2)
  have hRR : stR = stR2 := Option.some_inj.mp (hloopR.symm.trans hlR2)
  subst hgU
  subst hgF
  subst hgR
  subst hUU
  subst hFF
  subst hRR
  have hnodesU : (hydrate self self.materialize_nodes ei eidc n twf stU)._nodes.getD []
      = innerMerge (richNodes twf ns) mU n := by
    unfold hydrate
    simp only [hns]
    simp [Plottable.nodes, hmU2]
  have hnodesF : (hydrate self self.materialize_nodes ei eidc n twf stF)._nodes.getD []
      = innerMerge (richNodes twf ns) mF n := by
    unfold hydrate
    simp only [hns]
    simp [Plottable.nodes, hmF2]
  have hnodesR : (hydrate self self.materialize_nodes ei eidc n twf stR)._nodes.getD []
      = innerMerge (richNodes twf ns) mR n := by
    unfold hydrate
    simp only [hns]
    simp [Plottable.nodes, hmR2]
  rw [hnodesU, hnodesF, hnodesR]
  exact innerMerge_union hiff r

/-- Nodes {0, 1, 2}; edges 0→1 and 2→1.  From node 0, the undirected
traversal can cross 0→1 forward and then 2→1 backward, reaching node 2;
neither pure direction ever reaches it. -/
def altPathGraph : Plottable :=
  { _nodes := some [[("id", 0)], [("id", 1)], [("id", 2)]]
    _edges := [[("s", 0), ("d", 1)], [("s", 2), ("d", 1)]]
    _node := some "id", _source := some "s"
    _destination := some "d", _edge := none }

/-- The undirected 2-hop output on `altPathGraph` from node 0. -/
def undirOut2 : Plottable :=
  { _nodes := some [[("id", 0)], [("id", 1)], [("id", 2)]]
    _edges := [[("s", 0), ("d", 1)], [("s", 2), ("d", 1)]]
    _node := some "id", _source := some "s"
    _destination := some "d", _edge := none }

/-- The forward output on `altPathGraph` from node 0 (1 or 2 hops). -/
def fwdOut : Plottable :=
  { _nodes := some [[("id", 0)], [("id", 1)]]
    _edges := [[("s", 0), ("d", 1)]]
    _node := some "id", _source := some "s"
    _destination := some "d", _edge := none }

/-- The reverse output on `altPathGraph` from node 0 (1 or 2 hops). -/
def revOut : Plottable :=
  { _nodes := some []
    _edges := []
    _node := some "id", _source := some "s"
    _destination := some "d", _edge := none }

/-- C1 (counterexample to the claim as stated).  On `altPathGraph`, with
hop budget 2 from node 0, the undirected run's node set contains node 2
— reached by crossing edge 0→1 forward and edge 2→1 backward — while
neither the forward-only nor the reverse-only run's node set does, so
the undirected node set is not the union of the two directional runs. -/
theorem undirected_not_direction_union_cex :
    (hop altPathGraph (some [[("id", 0)]]) (some 2) false "undirected"
        none none none none none none false none = Except.ok undirOut2)
    ∧ (hop altPathGraph (some [[("id", 0)]]) (some 2) false "forward"
        none none none none none none false none = Except.ok fwdOut)
    ∧ (hop altPathGraph (some [[("id", 0)]]) (some 2) false "reverse"
        none none none none none none false none = Except.ok revOut)
    ∧ [("id", 2)] ∈ undirOut2._nodes.getD []
    ∧ [("id", 2)] ∉ fwdOut._nodes.getD []
    ∧ [("id", 2)] ∉ revOut._nodes.getD [] := by
  decide

/-! ### C7: fixed-point rerun on the output graph -/

theorem dedupAux_eq_self {α : Type} [DecidableEq α] {l : List α} (h : l.Nodup) :
    ∀ {seen : List α}, (∀ x ∈ l, x ∉ seen) → dedupAux seen l = l := by
  induction l with
  | nil => intro seen _; rfl
  | cons a as ih =>
    intro seen hs
    unfold dedupAux
    rw [if_neg (hs a (List.mem_cons_self _ _))]
    congr 1
    refine ih (List.nodup_cons.mp h).2 ?_
    intro x hx hmem
    rcases List.mem_cons.mp hmem with rfl | hmem2
    · exact (List.nodup_cons.mp h).1 hx
    · exact hs x (List.mem_cons_of_mem _ hx) hmem2

theorem dedupG_eq_self_of_nodup {α : Type} [DecidableEq α] {l : List α}
    (h : l.Nodup) : dedupG l = l :=
  dedupAux_eq_self h (fun x _ => List.not_mem_nil x)

theorem dedupAux_nil_of_seen {α : Type} [DecidableEq α] {xs seen : List α}
    (h : ∀ x ∈ xs, x ∈ seen) : dedupAux seen xs = [] := by
  induction xs with
  | nil => rfl
  | cons a as ih =>
    unfold dedupAux
    rw [if_pos (h a (List.mem_cons_self _ _))]
    exact ih (fun x hx => h x (List.mem_cons_of_mem _ hx))

theorem dedupAux_append_subsumed {α : Type} [DecidableEq α] {xs : List α}
    (l : List α) :
    ∀ {seen : List α}, (∀ x ∈ xs, x ∈ seen ∨ x ∈ l) →
      dedupAux seen (l ++ xs) = dedupAux seen l := by
  induction l with
  | nil =>
    intro seen h
    have h2 : ∀ x ∈ xs, x ∈ seen := by
      intro x hx
      rcases h x hx with h2 | h2
      · exact h2
      · exact absurd h2 (List.not_mem_nil x)
    simpa using dedupAux_nil_of_seen h2
  | cons a as ih =>
    intro seen h
    rw [List.cons_append]
    unfold dedupAux
    by_cases ha : a ∈ seen
    · rw [if_pos ha, if_pos ha]
      refine ih ?_
      intro x hx
      rcases h x hx with h2 | h2
      · exact Or.inl h2
      · rcases List.mem_cons.mp h2 with rfl | h3
        · exact Or.inl ha
        · exact Or.inr h3
    · rw [if_neg ha, if_neg ha]
      congr 1
      refine ih ?_
      intro x hx
      rcases h x hx with h2 | h2
      · exact Or.inl (List.mem_cons_of_mem _ h2)
      · rcases List.mem_cons.mp h2 with rfl | h3
        · exact Or.inl (List.mem_cons_self _ _)
        · exact Or.inr h3

theorem dedupG_append_subsumed {α : Type} [DecidableEq α] {l xs : List α}
    (h : ∀ x ∈ xs, x ∈ l) : dedupG (l ++ xs) = dedupG l :=
  dedupAux_append_subsumed l (fun x hx => Or.inr (h x hx))

/-- Filtering an id-shaped, key-distinct frame by one key value present in
it yields exactly that single row. -/
theorem filter_key_singleton {M : DF} {k : String} {v : Val}
    (hshape : ∀ r ∈ M, IdShaped k r)
    (hpw : M.Pairwise (fun a b => rlookup a k ≠ rlookup b k))
    (hv : [(k, v)] ∈ M) :
    M.filter (fun rr => rlookup rr k = some v) = [[(k, v)]] := by
  induction M with
  | nil => exact absurd hv (List.not_mem_nil _)
  | cons a M ih =>
    obtain ⟨hhead, htail⟩ := List.pairwise_cons.mp hpw
    have hshape2 : ∀ r ∈ M, IdShaped k r :=
      fun r hr => hshape r (List.mem_cons_of_mem _ hr)
    rcases List.mem_cons.mp hv with heq | hv2
    · subst heq
      rw [List.filter_cons_of_pos (by simp [rlookup])]
      have hnil : M.filter (fun rr => rlookup rr k = some v) = [] := by
        rw [List.filter_eq_nil_iff]
        intro r hr
        have hne := hhead r hr
        have hl : rlookup ([(k, v)] : Row) k = some v := by simp [rlookup]
        rw [hl] at hne
        simp only [decide_eq_true_eq]
        exact fun h2 => hne h2.symm
      rw [hnil]
    · rcases hshape a (List.mem_cons_self _ _) with ha0 | ⟨w, haw⟩
      · subst ha0
        rw [List.filter_cons_of_neg (by simp [rlookup])]
        exact ih hshape2 htail hv2
      · subst haw
        have hwv : w ≠ v := by
          intro hh
          subst hh
          exact hhead [(k, w)] hv2 rfl
        rw [List.filter_cons_of_neg (by simp [rlookup, hwv])]
        exact ih hshape2 htail hv2

/-- Inner-merging a frame against an id-shaped, key-distinct single-column
frame that covers every left key is the identity: each left row is merged
with exactly its own key row, which contributes no new columns. -/
theorem innerMerge_id {L M : DF} {k : String}
    (hshape : ∀ r ∈ M, IdShaped k r)
    (hpw : M.Pairwise (fun a b => rlookup a k ≠ rlookup b k))
    (hcov : ∀ rl ∈ L, ∃ v, rlookup rl k = some v ∧ [(k, v)] ∈ M) :
    innerMerge L M k = L := by
  induction L with
  | nil => rfl
  | cons rl L ih =>
    unfold innerMerge
    rw [List.flatMap_cons]
    obtain ⟨v, hvl, hvm⟩ := hcov rl (List.mem_cons_self _ _)
    have hfil : M.filter (fun rr => rlookup rr k = rlookup rl k) = [[(k, v)]] := by
      simp only [hvl]
      exact filter_key_singleton hshape hpw hvm
    rw [hfil]
    have hcomb : combineRow k rl [(k, v)] = rl := by
      unfold combineRow
      rw [List.filter_cons_of_neg (by simp)]
      simp
    simp only [List.map_cons, List.map_nil, hcomb]
    have ih2 := ih (fun r hr => hcov r (List.mem_cons_of_mem _ hr))
    unfold innerMerge at ih2
    rw [List.singleton_append, ih2]

/-- With no source predicates, the first iteration's frontier is the full
starting node frame, ids only. -/
theorem waveFrontIter_first (c : HopCtx) (hops : Option Int)
    (hsnm : c.source_node_match = none) (hsnq : c.source_node_query = none) :
    waveFrontIter c (initState hops) = selDF [c.n] c.nodesDF := by
  unfold waveFrontIter initState
  rw [hsnm, hsnq]
  simp [query_if_not_none, filter_by_dict]

/-- A single selected column yields id-shaped rows. -/
theorem sel_shaped (k : String) (df : DF) :
    ∀ r ∈ selDF [k] df, IdShaped k r := by
  intro r hr
  obtain ⟨y, _, hyx⟩ := List.mem_map.mp hr
  rw [← hyx, selectCols_cons]
  cases h : rlookup y k with
  | none => left; simp [selectCols]
  | some v => right; exact ⟨v, by simp [selectCols]⟩

/-- Distinct rows that are id-shaped over the same key have distinct
keys. -/
theorem nodup_idShaped_pairwise {k : String} {m : DF} (hnd : m.Nodup)
    (hsh : ∀ r ∈ m, IdShaped k r) :
    m.Pairwise (fun a b => rlookup a k ≠ rlookup b k) := by
  induction m with
  | nil => exact List.Pairwise.nil
  | cons a as ih =>
    obtain ⟨hna, hnd2⟩ := List.nodup_cons.mp hnd
    refine List.pairwise_cons.mpr
      ⟨?_, ih hnd2 (fun r hr => hsh r (List.mem_cons_of_mem _ hr))⟩
    intro b hb heq
    have hab : a = b := idShaped_key_det (hsh a (List.mem_cons_self _ _))
      (hsh b (List.mem_cons_of_mem _ hb)) heq
    exact hna (hab ▸ hb)

/-- Every edge whose source id sits in the frontier is matched by the
forward block, with its source, destination and edge-id columns
preserved. -/
theorem hopEdgesForwardRaw_cover (c : HopCtx) (wfi : DF) {re : Row} {v : Val}
    (hre : re ∈ c.edges_indexed) (hsv : rlookup re c.s = some v)
    (hw : [(c.n, v)] ∈ wfi)
    (hns : c.n ≠ c.s) (hnd : c.n ≠ c.d) (hne : c.n ≠ c.eid) :
    ∃ e ∈ hopEdgesForwardRaw c wfi,
      rlookup e c.s = rlookup re c.s ∧ rlookup e c.d = rlookup re c.d
      ∧ rlookup e c.eid = rlookup re c.eid := by
  have har : ((selectCols [c.s, c.d, c.eid] re).filter (fun kv => kv.1 ≠ c.n)
      ++ [(c.n, v)]) ∈ edgesAssignedF c := by
    unfold edgesAssignedF
    refine List.mem_map.mpr ⟨re, hre, ?_⟩
    rw [hsv]
  have harn : rlookup ((selectCols [c.s, c.d, c.eid] re).filter
      (fun kv => kv.1 ≠ c.n) ++ [(c.n, v)]) c.n = some v := by
    rw [rlookup_append, rlookup_filter_ne, if_pos rfl]
    simp [rlookup]
  have hwkeys : ∀ kv ∈ ([(c.n, v)] : Row), kv.1 = c.n := by
    intro kv hkv
    rw [List.mem_singleton] at hkv
    rw [hkv]
  have hx : combineRow c.n [(c.n, v)]
      ((selectCols [c.s, c.d, c.eid] re).filter (fun kv => kv.1 ≠ c.n)
        ++ [(c.n, v)]) ∈ innerMerge wfi (edgesAssignedF c) c.n :=
    mem_innerMerge.mpr ⟨[(c.n, v)], hw, _, har,
      by rw [harn]; simp [rlookup], rfl⟩
  refine ⟨selectCols [c.s, c.d, c.eid] (combineRow c.n [(c.n, v)]
      ((selectCols [c.s, c.d, c.eid] re).filter (fun kv => kv.1 ≠ c.n)
        ++ [(c.n, v)])), ?_, ?_, ?_, ?_⟩
  · unfold hopEdgesForwardRaw selDF
    exact List.mem_map.mpr ⟨_, hx, rfl⟩
  · rw [rlookup_selectCols, if_pos (by simp),
      combine_assigned_lookup c.n c.s (Ne.symm hns) [(c.n, v)] _ _ hwkeys hwkeys,
      rlookup_selectCols, if_pos (by simp)]
  · rw [rlookup_selectCols, if_pos (by simp),
      combine_assigned_lookup c.n c.d (Ne.symm hnd) [(c.n, v)] _ _ hwkeys hwkeys,
      rlookup_selectCols, if_pos (by simp)]
  · rw [rlookup_selectCols, if_pos (by simp),
      combine_assigned_lookup c.n c.eid (Ne.symm hne) [(c.n, v)] _ _ hwkeys hwkeys,
      rlookup_selectCols, if_pos (by simp)]

theorem reset_index_mem_of_mem {df : DF} {q : Row} (h : q ∈ df) :
    ∃ i : Nat, ("index", Int.ofNat i) :: q ∈ reset_index df := by
  obtain ⟨i, hi⟩ := List.getElem?_of_mem h
  refine ⟨i, ?_⟩
  unfold reset_index
  exact List.mem_map.mpr ⟨(i, q), List.mk_mem_enum_iff_getElem?.mpr hi, rfl⟩

/-- Dropping the surrogate column undoes `reset_index` when the original
frame never carried it. -/
theorem dropCol_index_reset_index {E : DF} (h : hasCol E "index" = false) :
    dropCol "index" (reset_index E) = E := by
  unfold dropCol reset_index
  rw [List.map_map]
  have hcong : ∀ p ∈ E.enum,
      (List.filter (fun kv => kv.1 ≠ "index") ∘
        fun p : Nat × Row => ("index", Int.ofNat p.1) :: p.2) p = p.2 := by
    intro p hp
    have hq : p.2 ∈ E := by
      have hp2 : (p.1, p.2) ∈ E.enum := by simpa using hp
      exact List.getElem?_mem (List.mk_mem_enum_iff_getElem?.mp hp2)
    show (("index", Int.ofNat p.1) :: p.2).filter (fun kv => kv.1 ≠ "index") = p.2
    rw [List.filter_cons_of_neg (by simp)]
    rw [List.filter_eq_self]
    intro kv hkv
    simpa using hasCol_false_keys h p.2 hq kv hkv
  rw [List.map_congr_left hcong]
  exact List.enum_map_snd E

/-- The forward block without a destination predicate: no restriction. -/
theorem forwardStep_noDest (c : HopCtx) (hdp : hasDestPred c = false)
    (wfi : DF) :
    forwardStep c wfi = (hopEdgesForwardRaw c wfi,
      dedupG (renameCol c.d c.n (selDF [c.d] (hopEdgesForwardRaw c wfi)))) := by
  unfold forwardStep
  rw [hdp]
  simp

theorem stepFwd_noDest (c : HopCtx) (hdf : c.dirF = true)
    (hdp : hasDestPred c = false) (st : LoopState) :
    stepFwd c st = some (hopEdgesForwardRaw c (waveFrontIter c st),
      dedupG (renameCol c.d c.n (selDF [c.d]
        (hopEdgesForwardRaw c (waveFrontIter c st))))) := by
  unfold stepFwd
  rw [hdf, forwardStep_noDest c hdp]
  simp

theorem stepRev_off (c : HopCtx) (hdr : c.dirR = false) (st : LoopState) :
    stepRev c st = none := by
  unfold stepRev
  rw [hdr]
  simp

theorem stepNewIds_noDest (c : HopCtx) (hdf : c.dirF = true)
    (hdr : c.dirR = false) (hdp : hasDestPred c = false) (st : LoopState) :
    stepNewIds c st = dedupG (renameCol c.d c.n (selDF [c.d]
      (hopEdgesForwardRaw c (waveFrontIter c st)))) := by
  unfold stepNewIds
  rw [stepFwd_noDest c hdf hdp st, stepRev_off c hdr st]
  unfold optNewIds
  rw [List.append_nil]
  exact dedupG_eq_self_of_nodup (nodup_dedupG _)

theorem stepMatchesEdges_noDest (c : HopCtx) (hdf : c.dirF = true)
    (hdr : c.dirR = false) (hdp : hasDestPred c = false) (st : LoopState) :
    stepMatchesEdges c st = dedupBy (fun r => rlookup r c.eid)
      (st.matches_edges
        ++ selDF [c.eid] (hopEdgesForwardRaw c (waveFrontIter c st))) := by
  unfold stepMatchesEdges
  rw [stepFwd_noDest c hdf hdp st, stepRev_off c hdr st]
  unfold optEdgeIds
  rw [List.append_nil]

theorem optEdgeIds_shaped (eidc : String) (p : Option (DF × DF)) :
    ∀ r ∈ optEdgeIds eidc p, IdShaped eidc r := by
  intro r hr
  cases p with
  | none => exact absurd hr (List.not_mem_nil r)
  | some fr => exact sel_shaped eidc fr.1 r hr

/-- The accumulated matched-edge set stays id-shaped across a step. -/
theorem stepMatchesEdges_shaped (c : HopCtx) (st : LoopState)
    (hsh : ∀ r ∈ st.matches_edges, IdShaped c.eid r) :
    ∀ r ∈ stepMatchesEdges c st, IdShaped c.eid r := by
  intro r hr
  have h2 := mem_dedupBy hr
  rcases List.mem_append.mp h2 with h3 | h3
  · rcases List.mem_append.mp h3 with h4 | h4
    · exact hsh r h4
    · exact optEdgeIds_shaped c.eid _ r h4
  · exact optEdgeIds_shaped c.eid _ r h3

theorem stepMatchesEdges_pairwise (c : HopCtx) (st : LoopState) :
    (stepMatchesEdges c st).Pairwise
      (fun a b => rlookup a c.eid ≠ rlookup b c.eid) :=
  keys_pairwise_dedupByAux _ [] _

/-- A previously matched edge-id row survives the step's deduplication. -/
theorem stepMatchesEdges_mem (c : HopCtx) (st : LoopState)
    (hsh : ∀ r ∈ st.matches_edges, IdShaped c.eid r)
    {r : Row} (hr : r ∈ st.matches_edges) :
    r ∈ stepMatchesEdges c st := by
  unfold stepMatchesEdges
  have hall : ∀ x ∈ st.matches_edges ++ optEdgeIds c.eid (stepFwd c st)
      ++ optEdgeIds c.eid (stepRev c st), IdShaped c.eid x := by
    intro x hx
    rcases List.mem_append.mp hx with h3 | h3
    · rcases List.mem_append.mp h3 with h4 | h4
      · exact hsh x h4
      · exact optEdgeIds_shaped c.eid _ x h4
    · exact optEdgeIds_shaped c.eid _ x h3
  exact mem_dedupBy_of_det
    (fun x hx y hy hf => idShaped_key_det (hall x hx) (hall y hy) hf)
    (List.mem_append.mpr (Or.inl (List.mem_append.mpr (Or.inl hr))))

theorem stepMatchesCur_init_shaped (c : HopCtx) (hops : Option Int)
    (hrawf : c.return_as_wave_front = false) :
    ∀ r ∈ stepMatchesCur c (initState hops), IdShaped c.n r := by
  rw [stepMatchesCur_init_seeds c hops hrawf]
  intro r hr
  rcases List.mem_append.mp (mem_dedupBy hr) with h | h
  · exact optSeedF_shaped c _ r h
  · exact optSeedR_shaped c _ r h

theorem stepNewIds_shaped_noDest (c : HopCtx) (hdf : c.dirF = true)
    (hdr : c.dirR = false) (hdp : hasDestPred c = false) (st : LoopState) :
    ∀ r ∈ stepNewIds c st, IdShaped c.n r := by
  rw [stepNewIds_noDest c hdf hdr hdp st]
  intro r hr
  exact renameSel_shaped c.d c.n _ r (mem_dedupG.mp hr)

/-- Each new node id produced by a predicate-free forward step is the
destination endpoint of some indexed edge. -/
theorem stepNewIds_from_edges (c : HopCtx) (hdf : c.dirF = true)
    (hdr : c.dirR = false) (hdp : hasDestPred c = false)
    (hnd : c.n ≠ c.d) (st : LoopState) :
    ∀ r ∈ stepNewIds c st, ∃ re ∈ c.edges_indexed,
      r = (match rlookup re c.d with | some w => [(c.n, w)] | none => []) := by
  intro r hr
  rw [stepNewIds_noDest c hdf hdr hdp st] at hr
  obtain ⟨x, hx, hxr⟩ := List.mem_map.mp (mem_dedupG.mp hr)
  obtain ⟨e, he, hex⟩ := List.mem_map.mp hx
  obtain ⟨re, hre, hlook⟩ := hopEdgesForwardRaw_lookup c _
    (waveFrontIter_keys c st) he c.d (by simp) (Ne.symm hnd)
  refine ⟨re, hre, ?_⟩
  rw [← hxr, ← hex, selectCols_cons, ← hlook]
  cases h : rlookup e c.d with
  | none => simp [selectCols]
  | some w => simp [selectCols]

/-- With no predicates, every edge id is matched in the first iteration. -/
theorem stepMatchesEdges_first_cover (c : HopCtx)
    (hdf : c.dirF = true) (hdr : c.dirR = false) (hdp : hasDestPred c = false)
    (hsnm : c.source_node_match = none) (hsnq : c.source_node_query = none)
    (hns : c.n ≠ c.s) (hnd : c.n ≠ c.d) (hne : c.n ≠ c.eid)
    {re : Row} {v i : Val}
    (hre : re ∈ c.edges_indexed) (hsv : rlookup re c.s = some v)
    (hw : [(c.n, v)] ∈ selDF [c.n] c.nodesDF)
    (hi : rlookup re c.eid = some i) :
    [(c.eid, i)] ∈ stepMatchesEdges c (initState none) := by
  obtain ⟨e, he, _, _, hei⟩ := hopEdgesForwardRaw_cover c
    (waveFrontIter c (initState none)) hre hsv
    (by rw [waveFrontIter_first c none hsnm hsnq]; exact hw) hns hnd hne
  have hmem : [(c.eid, i)] ∈ selDF [c.eid]
      (hopEdgesForwardRaw c (waveFrontIter c (initState none))) := by
    refine List.mem_map.mpr ⟨e, he, ?_⟩
    rw [selectCols_cons, hei, hi]
    simp [selectCols]
  rw [stepMatchesEdges_noDest c hdf hdr hdp _]
  refine mem_dedupBy_of_det ?_ (List.mem_append.mpr (Or.inr hmem))
  intro x hx y hy hf
  have hxs : IdShaped c.eid x := by
    rcases List.mem_append.mp hx with h | h
    · exact absurd h (List.not_mem_nil x)
    · exact sel_shaped c.eid _ x h
  have hys : IdShaped c.eid y := by
    rcases List.mem_append.mp hy with h | h
    · exact absurd h (List.not_mem_nil y)
    · exact sel_shaped c.eid _ y h
  exact idShaped_key_det hxs hys hf

/-- With no predicates, every edge's source endpoint seeds the result node
set in the first iteration. -/
theorem seeds_first_cover (c : HopCtx)
    (hdf : c.dirF = true) (hdp : hasDestPred c = false)
    (hrawf : c.return_as_wave_front = false)
    (hsnm : c.source_node_match = none) (hsnq : c.source_node_query = none)
    (hns : c.n ≠ c.s) (hnd : c.n ≠ c.d) (hne : c.n ≠ c.eid)
    {re : Row} {v : Val}
    (hre : re ∈ c.edges_indexed) (hsv : rlookup re c.s = some v)
    (hw : [(c.n, v)] ∈ selDF [c.n] c.nodesDF) :
    [(c.n, v)] ∈ stepMatchesCur c (initState none) := by
  obtain ⟨e, he, hes, _, _⟩ := hopEdgesForwardRaw_cover c
    (waveFrontIter c (initState none)) hre hsv
    (by rw [waveFrontIter_first c none hsnm hsnq]; exact hw) hns hnd hne
  rw [stepMatchesCur_init_seeds c none hrawf]
  apply mem_seedNodes
  apply List.mem_append.mpr
  left
  rw [stepFwd_noDest c hdf hdp _]
  exact mem_optSeedF c _ he (by rw [hes, hsv])

/-- With no predicates, every edge's destination endpoint enters the new
node ids of the first iteration. -/
theorem newIds_first_cover (c : HopCtx)
    (hdf : c.dirF = true) (hdr : c.dirR = false) (hdp : hasDestPred c = false)
    (hsnm : c.source_node_match = none) (hsnq : c.source_node_query = none)
    (hns : c.n ≠ c.s) (hnd : c.n ≠ c.d) (hne : c.n ≠ c.eid)
    {re : Row} {v w : Val}
    (hre : re ∈ c.edges_indexed) (hsv : rlookup re c.s = some v)
    (hw : [(c.n, v)] ∈ selDF [c.n] c.nodesDF)
    (hdw : rlookup re c.d = some w) :
    [(c.n, w)] ∈ stepNewIds c (initState none) := by
  obtain ⟨e, he, _, hed, _⟩ := hopEdgesForwardRaw_cover c
    (waveFrontIter c (initState none)) hre hsv
    (by rw [waveFrontIter_first c none hsnm hsnq]; exact hw) hns hnd hne
  rw [stepNewIds_noDest c hdf hdr hdp _]
  apply mem_dedupG.mpr
  refine List.mem_map.mpr ⟨selectCols [c.d] e, List.mem_map.mpr ⟨e, he, rfl⟩, ?_⟩
  rw [selectCols_cons, hed, hdw]
  simp [selectCols]

theorem hopLoop_succ (c : HopCtx) (fuel : Nat) (st : LoopState) :
    hopLoop c (fuel + 1) st
      = match hopStep c st with
        | Sum.inr st2 => some st2
        | Sum.inl st2 => hopLoop c fuel st2 := rfl

/-- The predicate-free forward fixed-point loop started from a frontier
covering every edge source: it halts within the fuel `hop` passes, every
edge id is matched, and the final result node set is id-shaped with
distinct keys and covers every edge endpoint. -/
theorem closedLoopFacts (c : HopCtx)
    (hdf : c.dirF = true) (hdr : c.dirR = false)
    (htfp : c.to_fixed_point = true)
    (hsnm : c.source_node_match = none) (hsnq : c.source_node_query = none)
    (hdp : hasDestPred c = false)
    (hrawf : c.return_as_wave_front = false)
    (hns : c.n ≠ c.s) (hnd : c.n ≠ c.d) (hne : c.n ≠ c.eid)
    (hclos : ∀ re ∈ c.edges_indexed,
      (∃ i, rlookup re c.eid = some i)
      ∧ (∃ v, rlookup re c.s = some v ∧ [(c.n, v)] ∈ selDF [c.n] c.nodesDF)
      ∧ (∃ w, rlookup re c.d = some w)) :
    ∃ stF m, hopLoop c (hopFuel c none) (initState none) = some stF
      ∧ stF.matches_nodes = some m
      ∧ (∀ r ∈ m, IdShaped c.n r)
      ∧ m.Pairwise (fun a b => rlookup a c.n ≠ rlookup b c.n)
      ∧ (∀ re ∈ c.edges_indexed, ∀ u,
          rlookup re c.s = some u ∨ rlookup re c.d = some u
          → [(c.n, u)] ∈ m)
      ∧ (∀ r ∈ stF.matches_edges, IdShaped c.eid r)
      ∧ stF.matches_edges.Pairwise
          (fun a b => rlookup a c.eid ≠ rlookup b c.eid)
      ∧ (∀ re ∈ c.edges_indexed, ∀ i, rlookup re c.eid = some i
          → [(c.eid, i)] ∈ stF.matches_edges) := by
  have hfuel : hopFuel c none = (nodeRowUniverse c).length + 2 := by
    unfold hopFuel
    rw [htfp]
    simp
  obtain ⟨hops2, hstep0⟩ := hopStep_not_blocked c (initState none)
    (fun h0 hf _ => absurd (htfp.symm.trans hf) (by simp))
  have hedgecov1 : ∀ re ∈ c.edges_indexed, ∀ i, rlookup re c.eid = some i
      → [(c.eid, i)] ∈ stepMatchesEdges c (initState none) := by
    intro re hre i hi
    obtain ⟨_, ⟨v, hsv, hw⟩, _⟩ := hclos re hre
    exact stepMatchesEdges_first_cover c hdf hdr hdp hsnm hsnq hns hnd hne
      hre hsv hw hi
  have hseedcov1 : ∀ re ∈ c.edges_indexed, ∀ u, rlookup re c.s = some u
      → [(c.n, u)] ∈ stepMatchesCur c (initState none) := by
    intro re hre u hu
    obtain ⟨_, ⟨v, hsv, hw⟩, _⟩ := hclos re hre
    have huv : u = v := Option.some_inj.mp (hu.symm.trans hsv)
    rw [huv]
    exact seeds_first_cover c hdf hdp hrawf hsnm hsnq hns hnd hne hre hsv hw
  have hnewcov1 : ∀ re ∈ c.edges_indexed, ∀ u, rlookup re c.d = some u
      → [(c.n, u)] ∈ stepNewIds c (initState none) := by
    intro re hre u hu
    obtain ⟨_, ⟨v, hsv, hw⟩, _⟩ := hclos re hre
    exact newIds_first_cover c hdf hdr hdp hsnm hsnq hns hnd hne hre hsv hw hu
  have hshCur : ∀ r ∈ stepMatchesCur c (initState none), IdShaped c.n r :=
    stepMatchesCur_init_shaped c none hrawf
  have hshNew : ∀ r ∈ stepNewIds c (initState none), IdShaped c.n r :=
    stepNewIds_shaped_noDest c hdf hdr hdp _
  have hshME1 : ∀ r ∈ stepMatchesEdges c (initState none), IdShaped c.eid r :=
    stepMatchesEdges_shaped c (initState none)
      (fun r hr => absurd hr (List.not_mem_nil r))
  have hpwCur : (stepMatchesCur c (initState none)).Pairwise
      (fun a b => rlookup a c.n ≠ rlookup b c.n) := by
    rw [stepMatchesCur_init_seeds c none hrawf]
    exact keys_pairwise_dedupByAux _ [] _
  rw [hfuel]
  by_cases hfix : (stepCombined c (initState none)).length
      = (stepMatchesCur c (initState none)).length
  · have hsc : stepCore c (initState none) hops2
        = Sum.inr
          { hops_remaining := hops2,
            wave_front := (initState none).wave_front,
            matches_nodes := some (stepMatchesCur c (initState none)),
            matches_edges := stepMatchesEdges c (initState none),
            first_iter := false } := by
      unfold stepCore
      rw [if_pos hfix]
    refine
      ⟨{ hops_remaining := hops2,
         wave_front := (initState none).wave_front,
         matches_nodes := some (stepMatchesCur c (initState none)),
         matches_edges := stepMatchesEdges c (initState none),
         first_iter := false },
      stepMatchesCur c (initState none), ?_, rfl, hshCur, hpwCur, ?_,
      hshME1, stepMatchesEdges_pairwise c _, hedgecov1⟩
    · rw [show (nodeRowUniverse c).length + 2
          = ((nodeRowUniverse c).length + 1) + 1 from rfl]
      rw [hopLoop_succ, hstep0, hsc]
    · intro re hre u hu
      rcases hu with hu | hu
      · exact hseedcov1 re hre u hu
      · exact dedupG_length_eq_imp_subset (stepMatchesCur_init_nodup c none)
          hfix _ (hnewcov1 re hre u hu)
  · set stB : LoopState :=
      { hops_remaining := hops2,
        wave_front := stepNewIds c (initState none),
        matches_nodes := some (stepCombined c (initState none)),
        matches_edges := stepMatchesEdges c (initState none),
        first_iter := false } with hstB
    have hsc1 : stepCore c (initState none) hops2 = Sum.inl stB := by
      unfold stepCore
      rw [if_neg hfix, hstB]
    obtain ⟨hops3, hstep1⟩ := hopStep_not_blocked c stB
      (fun h0 hf _ => absurd (htfp.symm.trans hf) (by simp))
    have hcur2 : stepMatchesCur c stB = stepCombined c (initState none) := by
      rw [hstB]
      rfl
    have hnew2 : ∀ r ∈ stepNewIds c stB, r ∈ stepCombined c (initState none) := by
      intro r hr
      obtain ⟨re, hre, hrform⟩ := stepNewIds_from_edges c hdf hdr hdp hnd stB r hr
      obtain ⟨_, ⟨v, hsv, hw⟩, ⟨w, hdw⟩⟩ := hclos re hre
      rw [hdw] at hrform
      subst hrform
      show [(c.n, w)] ∈ stepCombined c (initState none)
      exact mem_dedupG_append.mpr (Or.inr
        (newIds_first_cover c hdf hdr hdp hsnm hsnq hns hnd hne hre hsv hw hdw))
    have hcomb2 : stepCombined c stB = stepCombined c (initState none) := by
      show dedupG (stepMatchesCur c stB ++ stepNewIds c stB)
          = stepCombined c (initState none)
      rw [hcur2, dedupG_append_subsumed hnew2]
      exact dedupG_eq_self_of_nodup (nodup_dedupG _)
    have hfix2 : (stepCombined c stB).length = (stepMatchesCur c stB).length := by
      rw [hcomb2, hcur2]
    have hsc2 : stepCore c stB hops3
        = Sum.inr
          { hops_remaining := hops3,
            wave_front := stB.wave_front,
            matches_nodes := some (stepMatchesCur c stB),
            matches_edges := stepMatchesEdges c stB,
            first_iter := false } := by
      unfold stepCore
      rw [if_pos hfix2]
    refine
      ⟨{ hops_remaining := hops3,
         wave_front := stB.wave_front,
         matches_nodes := some (stepMatchesCur c stB),
         matches_edges := stepMatchesEdges c stB,
         first_iter := false },
      stepCombined c (initState none), ?_, by rw [hcur2], ?_, ?_, ?_, ?_,
      stepMatchesEdges_pairwise c _, ?_⟩
    · rw [show (nodeRowUniverse c).length + 2
          = ((nodeRowUniverse c).length + 1) + 1 from rfl]
      rw [hopLoop_succ, hstep0, hsc1]
      show hopLoop c ((nodeRowUniverse c).length + 1) stB = _
      rw [hopLoop_succ, hstep1, hsc2]
    · intro r hr
      rcases mem_dedupG_append.mp hr with h | h
      · exact hshCur r h
      · exact hshNew r h
    · refine nodup_idShaped_pairwise ?_ ?_
      · exact nodup_dedupG _
      · intro r hr
        rcases mem_dedupG_append.mp hr with h | h
        · exact hshCur r h
        · exact hshNew r h
    · intro re hre u hu
      rcases hu with hu | hu
      · exact mem_dedupG_append.mpr (Or.inl (hseedcov1 re hre u hu))
      · exact mem_dedupG_append.mpr (Or.inr (hnewcov1 re hre u hu))
    · intro r hr
      refine stepMatchesEdges_shaped c stB ?_ r hr
      intro x hx
      exact hshME1 x hx
    · intro re hre i hi
      refine stepMatchesEdges_mem c stB ?_ ?_
      · intro x hx
        exact hshME1 x hx
      · exact hedgecov1 re hre i hi

/-- Rebuilding a graph from its own edge relation and node table is the
identity. -/
theorem edges_nodes_self (g : Plottable) {ns : DF} (h : g._nodes = some ns) :
    (Plottable.edges g g._edges).nodes ns = g := by
  cases g with
  | mk a b c1 c2 c3 c4 =>
    simp only [Plottable.edges, Plottable.nodes]
    simp only at h
    rw [h]

/-- A two-node, one-edge graph used to refute idempotence in wavefront
mode. -/
def waveGraph : Plottable :=
  { _nodes := some [[("id", 0)], [("id", 1)]]
    _edges := [[("s", 0), ("d", 1)]]
    _node := some "id", _source := some "s"
    _destination := some "d", _edge := none }

/-- The first wavefront-mode fixed-point run on `waveGraph` from node 0:
only the reached node 1 is returned. -/
def waveOut1 : Plottable :=
  { _nodes := some [[("id", 1)]]
    _edges := [[("s", 0), ("d", 1)]]
    _node := some "id", _source := some "s"
    _destination := some "d", _edge := none }

/-- The rerun of the same call on `waveOut1` from its own node set:
node 1 has no outgoing edges, so everything is empty. -/
def waveOut2 : Plottable :=
  { _nodes := some []
    _edges := []
    _node := some "id", _source := some "s"
    _destination := some "d", _edge := none }

/-- C7 (counterexample to the claim as stated).  A fixed-point hop in
wavefront mode (`return_as_wave_front = true`) on the graph 0→1, started
at node 0, returns node set {1} and the edge 0→1; re-running it with the
same arguments on its own output graph, starting from the output's node
set {1}, returns empty node and edge sets — the second run does not
reproduce the first. -/
theorem fixed_point_not_idempotent_cex :
    (hop waveGraph (some [[("id", 0)]]) none true "forward"
        none none none none none none true none = Except.ok waveOut1)
    ∧ (hop waveOut1 (some [[("id", 1)]]) none true "forward"
        none none none none none none true none = Except.ok waveOut2)
    ∧ waveOut1._nodes.getD [] = [[("id", 1)]]
    ∧ waveOut2._nodes ≠ waveOut1._nodes
    ∧ waveOut2._edges ≠ waveOut1._edges := by
  decide

/-- C7 (amended).  With `to_fixed_point = true`, direction `forward`, no
predicates, non-wavefront mode, the full node table as starting set, and
a graph whose node table is closed (every edge carries source and
destination ids, sources present in the node table) and covered (every
node id is an edge endpoint), the output of `hop` is the input graph
itself, so re-running the call on its own output with the output's node
set as the starting set returns the output unchanged.  (The claim as
stated — for every argument combination — is refuted by
`fixed_point_not_idempotent_cex`: wavefront mode drops the roots, and
the rerun from the reached set finds nothing.) -/
theorem fixed_point_idempotent_closed
    (self : Plottable) (ns : DF) (n sc dc : String) (gOut : Plottable)
    (hnsv : self._nodes = some ns)
    (hn : self._node = some n)
    (hs : self._source = some sc)
    (hd : self._destination = some dc)
    (he : self._edge = none)
    (hni : hasCol self._edges "index" = false)
    (hnsc : n ≠ sc) (hndc : n ≠ dc) (hnidx : n ≠ "index")
    (hscidx : sc ≠ "index") (hdcidx : dc ≠ "index")
    (hclosS : ∀ er ∈ self._edges, ∃ v, rlookup er sc = some v
      ∧ ∃ nr ∈ ns, rlookup nr n = some v)
    (hclosD : ∀ er ∈ self._edges, ∃ w, rlookup er dc = some w)
    (hcov : ∀ nr ∈ ns, ∃ v, rlookup nr n = some v
      ∧ ∃ er ∈ self._edges, (rlookup er sc = some v ∨ rlookup er dc = some v))
    (hrun : hop self (some ns) none true "forward"
      none none none none none none false none = Except.ok gOut) :
    gOut = self
    ∧ hop gOut (some (gOut._nodes.getD [])) none true "forward"
        none none none none none none false none = Except.ok gOut := by
  have hmat : self.materialize_nodes = self := materialize_nodes_of_some self hnsv
  set ei := reset_index self._edges with hei
  have hie : indexEdges self.materialize_nodes none none
      = Except.ok (ei, "index") := by
    rw [hmat, hei]
    unfold indexEdges
    rw [he]
    simp [hni, query_if_not_none, Plottable.filter_edges_by_dict, filter_by_dict]
  set c0 := mkCtx self ei "index" ns n sc dc true "forward"
    none none none none false none with hc0
  have hclosCtx : ∀ re ∈ ei,
      (∃ i, rlookup re "index" = some i)
      ∧ (∃ v, rlookup re sc = some v ∧ [(n, v)] ∈ selDF [n] ns)
      ∧ (∃ w, rlookup re dc = some w) := by
    intro re hre
    obtain ⟨i, q, hq, hform⟩ := mem_reset_index (hei ▸ hre)
    subst hform
    refine ⟨⟨Int.ofNat i, by simp [rlookup]⟩, ?_, ?_⟩
    · obtain ⟨v, hv, nr, hnr, hnrn⟩ := hclosS q hq
      refine ⟨v, ?_, ?_⟩
      · show rlookup (("index", Int.ofNat i) :: q) sc = some v
        unfold rlookup
        rw [if_neg (Ne.symm hscidx)]
        exact hv
      · exact List.mem_map.mpr ⟨nr, hnr,
          by rw [selectCols_cons, hnrn]; simp [selectCols]⟩
    · obtain ⟨w, hw⟩ := hclosD q hq
      refine ⟨w, ?_⟩
      show rlookup (("index", Int.ofNat i) :: q) dc = some w
      unfold rlookup
      rw [if_neg (Ne.symm hdcidx)]
      exact hw
  obtain ⟨stF, m, hloop, hmn, hmsh, hmpw, hmcov, hesh, hepw, hecov⟩ :=
    closedLoopFacts c0 rfl rfl rfl rfl rfl rfl rfl hnsc hndc hnidx hclosCtx
  have hedges : innerMerge ei stF.matches_edges "index" = ei := by
    refine innerMerge_id hesh hepw ?_
    intro rl hrl
    obtain ⟨⟨i, hi⟩, _, _⟩ := hclosCtx rl hrl
    exact ⟨i, hi, hecov rl hrl i hi⟩
  have hnodes : innerMerge ns m n = ns := by
    refine innerMerge_id hmsh hmpw ?_
    intro nr hnr
    obtain ⟨v, hv, er, her, hor⟩ := hcov nr hnr
    obtain ⟨i, hmem⟩ := reset_index_mem_of_mem her
    have hmem2 : ("index", Int.ofNat i) :: er ∈ ei := hei ▸ hmem
    refine ⟨v, hv, hmcov _ hmem2 v ?_⟩
    rcases hor with hor | hor
    · left
      show rlookup (("index", Int.ofNat i) :: er) sc = some v
      unfold rlookup
      rw [if_neg (Ne.symm hscidx)]
      exact hor
    · right
      show rlookup (("index", Int.ofNat i) :: er) dc = some v
      unfold rlookup
      rw [if_neg (Ne.symm hdcidx)]
      exact hor
  have hhy : hydrate self self ei "index" n none stF = self := by
    simp only [hydrate, hnsv]
    rw [hni]
    simp only [Bool.false_eq_true, if_false]
    rw [hedges, hei, dropCol_index_reset_index hni]
    rw [hmn]
    simp only [Option.getD_some]
    rw [show richNodes none ns = ns from rfl, hnodes]
    exact edges_nodes_self self hnsv
  have hcore : hop self (some ns) none true "forward"
      none none none none none none false none = Except.ok self := by
    rw [hop_eq_hopRun self (some ns) none true "forward" none none none none
      none none false none ei "index" n sc dc (by simp) (Or.inl rfl) hie
      (by rw [hmat]; exact hn) (by rw [hmat]; exact hs)
      (by rw [hmat]; exact hd)]
    rw [hmat]
    show hopRun self self ei "index" ns n sc dc none true "forward"
        none none none none false none = Except.ok self
    unfold hopRun
    rw [← hc0, hloop]
    show Except.ok (hydrate self self ei "index" n none stF) = Except.ok self
    rw [hhy]
  have hgs : gOut = self := (Except.ok.inj (hcore.symm.trans hrun)).symm
  refine ⟨hgs, ?_⟩
  rw [hgs, hnsv]
  simp only [Option.getD_some]
  exact hcore

/-- A closed and covered three-node cycle 0→1→2→0 with extra node and
edge attributes. -/
def cycleGraph : Plottable :=
  { _nodes := some [[("id", 0), ("t", 7)], [("id", 1)], [("id", 2), ("t", 9)]]
    _edges := [[("s", 0), ("d", 1), ("w", 3)], [("s", 1), ("d", 2)],
      [("s", 2), ("d", 0)]]
    _node := some "id", _source := some "s"
    _destination := some "d", _edge := none }

/-- Witness for the amended C7 theorem at the concrete cycle graph. -/
theorem fixed_point_idempotent_closed_witness :
    cycleGraph = cycleGraph
    ∧ hop cycleGraph (some (cycleGraph._nodes.getD [])) none true "forward"
        none none none none none none false none = Except.ok cycleGraph :=
  fixed_point_idempotent_closed cycleGraph
    [[("id", 0), ("t", 7)], [("id", 1)], [("id", 2), ("t", 9)]]
    "id" "s" "d" cycleGraph
    rfl rfl rfl rfl rfl (by decide)
    (by decide) (by decide) (by decide) (by decide) (by decide)
    (by
      intro er her
      simp only [cycleGraph, List.mem_cons, List.not_mem_nil, or_false] at her
      rcases her with rfl | rfl | rfl
      · exact ⟨0, rfl, [("id", 0), ("t", 7)], by simp, rfl⟩
      · exact ⟨1, rfl, [("id", 1)], by simp, rfl⟩
      · exact ⟨2, rfl, [("id", 2), ("t", 9)], by simp, rfl⟩)
    (by
      intro er her
      simp only [cycleGraph, List.mem_cons, List.not_mem_nil, or_false] at her
      rcases her with rfl | rfl | rfl
      · exact ⟨1, rfl⟩
      · exact ⟨2, rfl⟩
      · exact ⟨0, rfl⟩)
    (by
      intro nr hnr
      simp only [List.mem_cons, List.not_mem_nil, or_false] at hnr
      rcases hnr with rfl | rfl | rfl
      · exact ⟨0, rfl, [("s", 0), ("d", 1), ("w", 3)], by simp [cycleGraph],
          Or.inl rfl⟩
      · exact ⟨1, rfl, [("s", 1), ("d", 2)], by simp [cycleGraph], Or.inl rfl⟩
      · exact ⟨2, rfl, [("s", 2), ("d", 0)], by simp [cycleGraph], Or.inl rfl⟩)
    (by decide)

/-- Witness for the amended C1 theorem at `altPathGraph` with one hop. -/
theorem undirected_union_single_hop_witness :
    ([("id", 1)] ∈ fwdOut._nodes.getD []
      ↔ ([("id", 1)] ∈ fwdOut._nodes.getD []
          ∨ [("id", 1)] ∈ revOut._nodes.getD [])) :=
  undirected_union_single_hop altPathGraph (some [[("id", 0)]])
    none none none none none none false none
    [[("index", 0), ("s", 0), ("d", 1)], [("index", 1), ("s", 2), ("d", 1)]]
    "index" "id" "s" "d" fwdOut fwdOut revOut
    (by decide) (by decide) (by decide) (by decide)
    (by decide) (by decide) (by decide)
    [[("id", 0)], [("id", 1)], [("id", 2)]] rfl [("id", 1)]

end Hop
